import Mathlib

/-!
Verification of the courseworkbuddy backend core: the structured-output
repair decoder (`repair_json`), the response schema mapper, priority
normalization, conversation memory, analysis truncation and fallback, and
PDF image extraction.  Python strings are modelled as `List Char`
(sequences of unicode code points); `json.loads` is modelled by a fueled
recursive-descent parser (`parseVal`) faithful to Python's strict JSON
grammar.  String and number values are represented by their source
lexemes: Python decodes escape sequences and converts numerals to
int/float, but every property proved here only compares values arising
from parses of related texts, for which lexeme equality coincides with
Python value equality.
-/

namespace CourseworkBuddy

/-- JSON whitespace as skipped by Python's `json.loads` (`json.decoder._w`). -/
def isJsonWs (c : Char) : Bool :=
  c = ' ' || c = '\t' || c = '\n' || c = '\r'

/-- Python `str.isspace` characters, the set stripped by `str.strip()` and
matched by the regex class `\s` on `str` patterns. -/
def isPySpace (c : Char) : Bool :=
  c = ' ' || c = '\t' || c = '\n' || c = '\r' ||
  c = Char.ofNat 0x0b || c = Char.ofNat 0x0c ||
  c = Char.ofNat 0x1c || c = Char.ofNat 0x1d ||
  c = Char.ofNat 0x1e || c = Char.ofNat 0x1f ||
  c = Char.ofNat 0x85 || c = Char.ofNat 0xa0 ||
  c = Char.ofNat 0x1680 ||
  (0x2000 ≤ c.toNat && c.toNat ≤ 0x200a) ||
  c = Char.ofNat 0x2028 || c = Char.ofNat 0x2029 ||
  c = Char.ofNat 0x202f || c = Char.ofNat 0x205f || c = Char.ofNat 0x3000

/-- Python `str.strip()` on a list of code points. -/
def pyStrip (cs : List Char) : List Char :=
  ((cs.dropWhile isPySpace).reverse.dropWhile isPySpace).reverse

/-- JSON values as produced by `json.loads`, with strings and numbers kept
as their source lexemes (see the file comment). Object fields keep source
order; `json.loads` rejects nothing about duplicate keys, and the texts we
compare are syntactically identical, so no dedup is modelled. -/
inductive Json where
  | null : Json
  | bool : Bool → Json
  | num : String → Json
  | str : String → Json
  | arr : List Json → Json
  | obj : List (String × Json) → Json
deriving Repr, Inhabited, BEq

def Json.isObj : Json → Bool
  | .obj _ => true
  | _ => false

/-- `l.takeWhile`/`dropWhile` for JSON whitespace: `json.decoder._w`. -/
def skipWs (cs : List Char) : List Char := cs.dropWhile isJsonWs

def isDigitC (c : Char) : Bool := '0' ≤ c && c ≤ '9'

def isHexC (c : Char) : Bool :=
  isDigitC c || ('a' ≤ c && c ≤ 'f') || ('A' ≤ c && c ≤ 'F')

/-- Body of a JSON string literal after the opening quote, per Python's
`py_scanstring` with `strict=True`: control characters below 0x20 are
rejected unescaped; the 8 single-character escapes and `\uXXXX` are
allowed.  Returns the raw lexeme (content between the quotes, escapes
undecoded) and the text after the closing quote. -/
def parseStringBody : List Char → Option (List Char × List Char)
  | [] => none
  | c :: rest =>
    if c = '"' then some ([], rest)
    else if c = '\\' then
      match rest with
      | [] => none
      | d :: rest2 =>
        if d = '"' ∨ d = '\\' ∨ d = '/' ∨ d = 'b' ∨ d = 'f' ∨
           d = 'n' ∨ d = 'r' ∨ d = 't' then
          (parseStringBody rest2).map (fun p => (c :: d :: p.1, p.2))
        else if d = 'u' then
          match rest2 with
          | h1 :: h2 :: h3 :: h4 :: rest3 =>
            if isHexC h1 && isHexC h2 && isHexC h3 && isHexC h4 then
              (parseStringBody rest3).map
                (fun p => (c :: d :: h1 :: h2 :: h3 :: h4 :: p.1, p.2))
            else none
          | _ => none
        else none
    else if c.toNat < 0x20 then none
    else (parseStringBody rest).map (fun p => (c :: p.1, p.2))

/-! JSON number per Python's `NUMBER_RE`:
`-?(0|[1-9][0-9]*)(\.[0-9]+)?([eE][+-]?[0-9]+)?`, split into its four
regex groups.  Optional groups that fail to match completely are simply
not consumed (the regex backtracks), matching the scanner's behaviour of
returning the shorter lexeme. -/

/-- The optional leading `-` of `NUMBER_RE`. -/
def lexSign : List Char → List Char × List Char
  | c :: r => if c = '-' then (['-'], r) else ([], c :: r)
  | [] => ([], [])

/-- The mandatory integer group `(0|[1-9][0-9]*)`. -/
def lexInt : List Char → Option (List Char × List Char)
  | [] => none
  | c :: r =>
    if c = '0' then some (['0'], r)
    else if isDigitC c then
      some (c :: r.takeWhile isDigitC, r.dropWhile isDigitC)
    else none

/-- The optional fraction group `(\.[0-9]+)?`. -/
def lexFrac (cs : List Char) : List Char × List Char :=
  match cs with
  | c :: r2 =>
    if c = '.' then
      if r2.takeWhile isDigitC = [] then ([], c :: r2)
      else ('.' :: r2.takeWhile isDigitC, r2.dropWhile isDigitC)
    else ([], c :: r2)
  | [] => ([], [])

/-- The optional `[+-]?` inside the exponent group. -/
def lexExpSign : List Char → List Char × List Char
  | c :: r =>
    if c = '+' then (['+'], r)
    else if c = '-' then (['-'], r)
    else ([], c :: r)
  | [] => ([], [])

/-- The optional exponent group `([eE][+-]?[0-9]+)?`. -/
def lexExp (cs : List Char) : List Char × List Char :=
  match cs with
  | e :: r3 =>
    if e = 'e' ∨ e = 'E' then
      if (lexExpSign r3).2.takeWhile isDigitC = [] then ([], e :: r3)
      else (e :: (lexExpSign r3).1 ++ (lexExpSign r3).2.takeWhile isDigitC,
        (lexExpSign r3).2.dropWhile isDigitC)
    else ([], e :: r3)
  | [] => ([], [])

def parseNumber (cs : List Char) : Option (List Char × List Char) :=
  match lexInt (lexSign cs).2 with
  | none => none
  | some (ip, rest0) =>
    some ((lexSign cs).1 ++ ip ++ (lexFrac rest0).1 ++
        (lexExp (lexFrac rest0).2).1,
      (lexExp (lexFrac rest0).2).2)

def startsWithSeq (pat cs : List Char) : Bool := cs.take pat.length = pat

def trueLit : List Char := ['t', 'r', 'u', 'e']
def falseLit : List Char := ['f', 'a', 'l', 's', 'e']
def nullLit : List Char := ['n', 'u', 'l', 'l']
def nanLit : List Char := ['N', 'a', 'N']
def infLit : List Char := ['I', 'n', 'f', 'i', 'n', 'i', 't', 'y']
def negInfLit : List Char := '-' :: infLit

mutual

/-- One JSON value, per Python's `json.scanner.py_make_scanner` dispatch.
`fuel ≥ 2 * length + 2` always suffices (each fuel step consumes a
character, except the single elems→value step). -/
def parseVal : Nat → List Char → Option (Json × List Char)
  | 0, _ => none
  | Nat.succ n, cs =>
    match cs with
    | [] => none
    | c :: rest =>
      if c = '{' then
        match parseMembers n true (skipWs rest) with
        | some (fs, r) => some (Json.obj fs, r)
        | none => none
      else if c = '[' then
        match parseElems n true (skipWs rest) with
        | some (xs, r) => some (Json.arr xs, r)
        | none => none
      else if c = '"' then
        match parseStringBody rest with
        | some (lex, r) => some (Json.str (String.mk lex), r)
        | none => none
      else if startsWithSeq trueLit cs then some (Json.bool true, cs.drop 4)
      else if startsWithSeq falseLit cs then some (Json.bool false, cs.drop 5)
      else if startsWithSeq nullLit cs then some (Json.null, cs.drop 4)
      else if startsWithSeq nanLit cs then
        some (Json.num (String.mk nanLit), cs.drop 3)
      else if startsWithSeq infLit cs then
        some (Json.num (String.mk infLit), cs.drop 8)
      else if startsWithSeq negInfLit cs then
        some (Json.num (String.mk negInfLit), cs.drop 9)
      else
        match parseNumber cs with
        | some (lex, r) => some (Json.num (String.mk lex), r)
        | none => none

/-- Object members (Python `JSONObject`): expects either an immediate `}`
(only when `first`, i.e. an empty object) or a `"key": value` list
separated by commas and closed by `}`.  Input arrives whitespace-skipped;
consumes the closing brace. -/
def parseMembers : Nat → Bool → List Char →
    Option (List (String × Json) × List Char)
  | 0, _, _ => none
  | Nat.succ n, first, cs =>
    match cs with
    | [] => none
    | c :: rest =>
      if first ∧ c = '}' then some ([], rest)
      else if c = '"' then
        match parseStringBody rest with
        | some (key, r1) =>
          (match skipWs r1 with
           | ':' :: r3 =>
             (match parseVal n (skipWs r3) with
              | some (v, r5) =>
                (match skipWs r5 with
                 | ',' :: r7 =>
                   (match parseMembers n false (skipWs r7) with
                    | some (fs, rr) => some ((String.mk key, v) :: fs, rr)
                    | none => none)
                 | '}' :: r7 => some ([(String.mk key, v)], r7)
                 | _ => none)
              | none => none)
           | _ => none)
        | none => none
      else none

/-- Array elements (Python `JSONArray`): immediate `]` only for an empty
array, otherwise comma-separated values closed by `]`. -/
def parseElems : Nat → Bool → List Char → Option (List Json × List Char)
  | 0, _, _ => none
  | Nat.succ n, first, cs =>
    match cs with
    | [] => none
    | c :: _rest =>
      if first ∧ c = ']' then some ([], cs.tail)
      else
        match parseVal n cs with
        | some (v, r1) =>
          (match skipWs r1 with
           | ',' :: r3 =>
             (match parseElems n false (skipWs r3) with
              | some (xs, rr) => some (v :: xs, rr)
              | none => none)
           | ']' :: r3 => some (v :: [], r3)
           | _ => none)
        | none => none

end

/-- `json.loads` on a list of code points: skip leading whitespace, parse
one value, require only whitespace to remain. -/
def jsonLoadsL (cs : List Char) : Option Json :=
  match parseVal (2 * cs.length + 2) (skipWs cs) with
  | some (v, rest) => if skipWs rest = [] then some v else none
  | none => none

/-- `json.loads` on a `String`. -/
def jsonLoads (s : String) : Option Json := jsonLoadsL s.data

/-- The stack update of one structural (outside-string) character:
`{`/`[` push; `}`/`]` pop only a matching top. -/
def stackUpd (c : Char) (stack : List Char) : List Char :=
  if c = '{' ∨ c = '[' then c :: stack
  else if c = '}' then
    (if stack.head? = some '{' then stack.tail else stack)
  else if c = ']' then
    (if stack.head? = some '[' then stack.tail else stack)
  else stack

/-- The character-level state machine of `repair_json` (the `while i <
len(text)` loop): `acc` is the `result` list, `stack` the open-bracket
stack with its top at the head (Python appends/pops at the end), `inStr`
and `esc` the `in_string`/`escape_next` flags.  Returns the final
`(result, stack, in_string)`; the loop `break`s once the stack empties
with `result[0] == '{'` after a structural character. -/
def scanGo : List Char → List Char → List Char → Bool → Bool →
    List Char × List Char × Bool
  | [], acc, stack, inStr, _ => (acc, stack, inStr)
  | c :: rest, acc, stack, inStr, esc =>
    if esc then scanGo rest (acc ++ [c]) stack inStr false
    else if c = '\\' ∧ inStr then scanGo rest (acc ++ [c]) stack inStr true
    else if c = '"' then scanGo rest (acc ++ [c]) stack (!inStr) false
    else if inStr then
      if c = '\n' then scanGo rest (acc ++ ['\\', 'n']) stack inStr false
      else if c = '\r' then scanGo rest (acc ++ ['\\', 'r']) stack inStr false
      else if c = '\t' then scanGo rest (acc ++ ['\\', 't']) stack inStr false
      else scanGo rest (acc ++ [c]) stack inStr false
    else
      if stackUpd c stack = [] ∧ (acc ++ [c]).head? = some '{' then
        (acc ++ [c], stackUpd c stack, false)
      else scanGo rest (acc ++ [c]) (stackUpd c stack) false false

def backquote : Char := Char.ofNat 96

def fenceLit : List Char := [backquote, backquote, backquote]

def containsSeq (pat : List Char) : List Char → Bool
  | [] => startsWithSeq pat []
  | c :: rest => startsWithSeq pat (c :: rest) || containsSeq pat rest

/-- Python `text.rfind(pat)`: index of the last occurrence. -/
def rfindSeq (pat cs : List Char) : Option Nat :=
  ((List.range (cs.length + 1)).filter
    (fun k => startsWithSeq pat (cs.drop k))).getLast?

/-- Python `text.find(ch)` for a single character (`none` for -1). -/
def pyFindChar (ch : Char) : List Char → Option Nat
  | [] => none
  | x :: rest =>
    if x = ch then some 0 else (pyFindChar ch rest).map (· + 1)

/-- Python `text.rfind(ch)` for a single character. -/
def rfindChar (ch : Char) (cs : List Char) : Option Nat :=
  match pyFindChar ch cs.reverse with
  | some j => some (cs.length - 1 - j)
  | none => none

/-- The markdown-fence removal block of `repair_json` (lines 52-58):
applies only when the stripped text starts with three backquotes. -/
def stripFences (cs : List Char) : List Char :=
  if startsWithSeq fenceLit cs then
    let cs1 :=
      match pyFindChar '\n' cs with
      | some i => if 0 < i then cs.drop (i + 1) else cs
      | none => cs
    let cs2 :=
      if containsSeq fenceLit cs1 then
        match rfindSeq fenceLit cs1 with
        | some k => cs1.take k
        | none => cs1
      else cs1
    pyStrip cs2
  else cs

/-- `repair_json`'s preprocessing: strip, then fence removal. -/
def preprocess (s : String) : List Char := stripFences (pyStrip s.data)

theorem dropWhile_len_le (p : Char → Bool) (l : List Char) :
    (l.dropWhile p).length ≤ l.length := by
  induction l with
  | nil => simp [List.dropWhile]
  | cons c cs ih =>
    simp only [List.dropWhile]
    split
    · exact Nat.le_succ_of_le ih
    · simp

theorem tail_dropWhile_len_le (p : Char → Bool) (l : List Char) :
    (l.dropWhile p).tail.length ≤ l.length := by
  have h1 := dropWhile_len_le p l
  have h2 : (l.dropWhile p).tail.length ≤ (l.dropWhile p).length := by
    cases l.dropWhile p <;> simp
  omega

/-- The regex repair `re.sub(r',\s*([}\]])', r'\1', ...)`: drop a comma
that is followed (across whitespace) by a closing bracket. -/
def removeTrailingCommas : List Char → List Char
  | [] => []
  | c :: rest =>
    if c = ',' ∧ ((rest.dropWhile isPySpace).head? = some '}' ∨
        (rest.dropWhile isPySpace).head? = some ']') then
      (rest.dropWhile isPySpace).headD ' ' ::
        removeTrailingCommas (rest.dropWhile isPySpace).tail
    else c :: removeTrailingCommas rest
termination_by cs => cs.length
decreasing_by
  all_goals simp only [List.length_cons]
  · exact Nat.lt_succ_of_le (tail_dropWhile_len_le _ _)
  · omega

def emptyObjStr : String := String.mk ['{', '}']

/-- `while stack: ...` — close remaining brackets in pop (LIFO) order. -/
def closeStack (stack : List Char) : List Char :=
  stack.map (fun b => if b = '{' then '}' else ']')

/-- The candidate `json_str` after the scan: the scanned result, a closing
quote if still inside a string, then the bracket closers (lines 66-145). -/
def repairCandidate (text : List Char) : List Char :=
  match scanGo text [] [] false false with
  | (res, stack, inStr) => res ++ (if inStr then ['"'] else []) ++ closeStack stack

/-- The secondary repairs of lines 152-158: strip trailing commas, then
truncate after the last `}` when its index is positive. -/
def secondPass (jsonStr : List Char) : List Char :=
  match rfindChar '}' (removeTrailingCommas jsonStr) with
  | some k =>
    if 0 < k then (removeTrailingCommas jsonStr).take (k + 1)
    else removeTrailingCommas jsonStr
  | none => removeTrailingCommas jsonStr

/-- `repair_json` from `ai_decomposer.py` (lines 40-166): strip, remove
fences, find the first `{`, run the bracket/string state machine, close an
unterminated string and any open brackets, then validate with
`json.loads`; on failure apply the trailing-comma and last-brace repairs
and validate again; on total failure return `{}`. -/
def repair_json (s : String) : String :=
  if s = "" then emptyObjStr
  else
    match pyFindChar '{' (preprocess s) with
    | none => emptyObjStr
    | some start =>
      if (jsonLoadsL (repairCandidate ((preprocess s).drop start))).isSome then
        String.mk (repairCandidate ((preprocess s).drop start))
      else if (jsonLoadsL (secondPass
          (repairCandidate ((preprocess s).drop start)))).isSome then
        String.mk (secondPass (repairCandidate ((preprocess s).drop start)))
      else emptyObjStr

/-! ### Python value helpers for the schema mapper

The mapper receives the `json.loads` result, a dynamically typed Python
value, modelled by `Json`.  `str(...)`, `int(...)`, `list(...)` and
truthiness are modelled below.  Conventions (see the file comment):
string/number values are their lexemes; `pyStrOf` of containers renders a
`repr`-like text without escape processing, and `pyIntOfNumLex` uses exact
decimal arithmetic where CPython would round through a 64-bit float —
neither difference is observable by the claims proved here. -/

def Json.isArr : Json → Bool
  | .arr _ => true
  | _ => false

/-- Python truthiness of a decoded JSON value: `None`/`False`/zero/empty
are falsy (`NaN` and `Infinity` floats are truthy). -/
def pyTruthy : Json → Bool
  | .null => false
  | .bool b => b
  | .num lex =>
    ((lex.data.takeWhile (fun c => c ≠ 'e' ∧ c ≠ 'E')).any
      (fun c => '1' ≤ c && c ≤ '9')) ||
    lex.data.any (fun c => c = 'N' || c = 'I')
  | .str s => !s.isEmpty
  | .arr l => !l.isEmpty
  | .obj l => !l.isEmpty

/-- Python `dict.get(k)` on the decoded object (later duplicate keys win,
as in `json.loads`). -/
def dictGet (fields : List (String × Json)) (k : String) : Option Json :=
  (fields.reverse.find? (fun kv => kv.1 = k)).map (fun kv => kv.2)

/-- Keys of the decoded dict in first-insertion order. -/
def objKeys (fs : List (String × Json)) : List String :=
  fs.foldl (fun acc kv => if acc.contains kv.1 then acc else acc ++ [kv.1]) []

/-- Python iteration `for x in v` / `list(v)`: lists yield elements,
strings yield their characters, dicts their keys; numbers, booleans and
`None` raise `TypeError` (`none`). -/
def pyIter : Json → Option (List Json)
  | .arr l => some l
  | .str s => some (s.data.map (fun c => Json.str (String.mk [c])))
  | .obj fs => some ((objKeys fs).map Json.str)
  | _ => none

mutual

/-- Python `repr` of a decoded JSON value (container rendering used by
`str(...)` on lists/dicts; escape-free, see the convention note). -/
def pyReprJ : Json → String
  | .null => "None"
  | .bool b => if b then "True" else "False"
  | .num lex => lex
  | .str s => String.mk ('\'' :: s.data) ++ String.mk ['\'']
  | .arr l => String.mk ['['] ++ pyReprList l ++ String.mk [']']
  | .obj fs => String.mk ['\x7b'] ++ pyReprFields fs ++ String.mk ['\x7d']

def pyReprList : List Json → String
  | [] => ""
  | [x] => pyReprJ x
  | x :: y :: rest => pyReprJ x ++ ", " ++ pyReprList (y :: rest)

def pyReprFields : List (String × Json) → String
  | [] => ""
  | [kv] => String.mk ('\'' :: kv.1.data) ++ "': " ++ pyReprJ kv.2
  | kv :: kv2 :: rest =>
    String.mk ('\'' :: kv.1.data) ++ "': " ++ pyReprJ kv.2 ++ ", " ++
      pyReprFields (kv2 :: rest)

end

/-- Python `str(...)` of a decoded JSON value. -/
def pyStrOf : Json → String
  | .null => "None"
  | .bool b => if b then "True" else "False"
  | .num lex => lex
  | .str s => s
  | .arr l => pyReprJ (.arr l)
  | .obj fs => pyReprJ (.obj fs)

def natOfDigits (ds : List Char) : Nat :=
  ds.foldl (fun acc c => 10 * acc + (c.toNat - 48)) 0

/-- Python `int(s)` for a `str` argument: optional surrounding whitespace
and sign, then decimal digits with single underscores between digits. -/
def pyIntOfStr (s : String) : Option Int :=
  let cs := pyStrip s.data
  let (sign, cs1) : Int × List Char :=
    match cs with
    | '+' :: r => (1, r)
    | '-' :: r => (-1, r)
    | _ => (1, cs)
  let rec digitsUS : Nat → List Char → Option Nat
    | acc, [] => some acc
    | acc, c :: rest =>
      if isDigitC c then digitsUS (10 * acc + (c.toNat - 48)) rest
      else if c = '_' then
        match rest with
        | d :: rest2 =>
          if isDigitC d then digitsUS (10 * acc + (d.toNat - 48)) rest2
          else none
        | [] => none
      else none
  match cs1 with
  | c :: rest =>
    if isDigitC c then
      match digitsUS (c.toNat - 48) rest with
      | some n => some (sign * Int.ofNat n)
      | none => none
    else none
  | [] => none

/-- Python `int(f)` for a float given by its JSON lexeme: truncation
toward zero, exact decimal semantics; `nan`/`inf` raise. -/
def pyIntOfNumLex (cs : List Char) : Option Int :=
  if cs.any (fun c => c = 'N' || c = 'I') then none
  else
    let (sign, cs1) : Int × List Char :=
      match cs with
      | '-' :: r => (-1, r)
      | _ => (1, cs)
    let ip := cs1.takeWhile isDigitC
    let r0 := cs1.dropWhile isDigitC
    let (fp, r1) : List Char × List Char :=
      match r0 with
      | '.' :: r => (r.takeWhile isDigitC, r.dropWhile isDigitC)
      | _ => ([], r0)
    let e : Int :=
      match r1 with
      | _ :: r =>
        match r with
        | '-' :: ds => -(Int.ofNat (natOfDigits ds))
        | '+' :: ds => Int.ofNat (natOfDigits ds)
        | ds => Int.ofNat (natOfDigits ds)
      | [] => 0
    let d : Nat := natOfDigits (ip ++ fp)
    let shift : Int := e - Int.ofNat fp.length
    let mag : Nat :=
      match shift with
      | .ofNat k => d * 10 ^ k
      | .negSucc k => d / 10 ^ (k + 1)
    some (sign * Int.ofNat mag)

/-- Python `int(v)` on a decoded JSON value (`bool` is an `int` subclass;
`str` parses; floats truncate; others raise `TypeError`). -/
def pyInt : Json → Option Int
  | .bool b => some (if b then 1 else 0)
  | .num lex => pyIntOfNumLex lex.data
  | .str s => pyIntOfStr s
  | _ => none

/-! ### Priority normalization (`_parse_priority`, lines 169-214) -/

/-- The dynamic argument types `_parse_priority` receives from its call
site (`task_data.get("priority")` values are handled separately by
`parsePriorityOfJson`): `None`, `int`, or `str`. -/
inductive PVal where
  | none : PVal
  | int : Int → PVal
  | str : String → PVal

/-- The `priority_map` dict, in insertion order. -/
def priority_map : List (String × Int) :=
  [("essential", 0), ("critical", 0), ("high", 0), ("must", 0),
   ("strong", 1), ("important", 1), ("medium", 1), ("should", 1),
   ("excellence", 2), ("bonus", 2), ("optional", 2), ("low", 2),
   ("nice", 2)]

/-- ASCII lowering, standing in for Python `str.lower()` (all
`priority_map` keys are ASCII, and non-ASCII lowering cannot create an
ASCII keyword substring). -/
def asciiLower (c : Char) : Char :=
  if 'A' ≤ c ∧ c ≤ 'Z' then Char.ofNat (c.toNat + 32) else c

/-- `str(priority_value).lower().strip()` followed by the first
`key in priority_str` match, defaulting to medium priority 1. -/
def priorityKeywordLookup (s : String) : Int :=
  let ps := pyStrip (s.data.map asciiLower)
  match priority_map.find? (fun kv => containsSeq kv.1.data ps) with
  | some kv => kv.2
  | Option.none => 1

/-- `_parse_priority` (lines 169-214): `None` passes through, integers
pass through, numeric strings convert via `int()`, otherwise
case-insensitive substring keyword matching with default 1. -/
def _parse_priority : PVal → Option Int
  | .none => Option.none
  | .int i => some i
  | .str s =>
    match pyIntOfStr s with
    | some i => some i
    | Option.none => some (priorityKeywordLookup s)

/-! ### Typed schema (`models/schemas.py`)

Pydantic v2 in lax mode does not coerce between `int`/`bool`/`str`; a
`str` field only accepts `str`, so every `list[str]` field built by
`list(...)` must contain only strings or the item (or the whole response
constructor) raises `ValidationError`. -/

structure Task where
  task_id : String
  title : String
  description : String
  estimated_time : String
  related_files : List String := []
  pdf_snippet : Option String := Option.none
  commands : List String := []
  prerequisites : List String := []
  status : String := "todo"
  priority : Option Int := Option.none
deriving Repr, DecidableEq

structure Milestone where
  id : String
  title : String
  description : Option String := Option.none
  summary : Option String := Option.none
  tasks : List String := []
deriving Repr, DecidableEq

structure TermDefinition where
  term : String
  definition : String
  «example» : Option String := Option.none
deriving Repr, DecidableEq

structure MarkingCriterion where
  component : String
  percentage : Option Int := Option.none
  description : String
  priority : String := "essential"
deriving Repr, DecidableEq

structure GetStartedStep where
  step_number : Int
  title : String
  description : String
  commands : List String := []
  expected_output : Option String := Option.none
deriving Repr, DecidableEq

structure PrioritizationTier where
  tier : String
  description : String
  time_estimate : String
  task_ids : List String := []
deriving Repr, DecidableEq

structure WeeklySchedule where
  week : Int
  title : String
  task_ids : List String := []
  hours_estimate : Int
deriving Repr, DecidableEq

structure DirectoryEntry where
  path : String
  type : String
  description : Option String := Option.none
deriving Repr, DecidableEq

structure DecompositionResponse where
  tasks : List Task
  milestones : List Milestone := []
  setup_instructions : List String := []
  course_name : Option String := Option.none
  total_estimated_time : Option String := Option.none
  summary_overview : Option String := Option.none
  key_deliverables : List String := []
  what_you_need_to_do : Option String := Option.none
  deadline : Option String := Option.none
  deadline_note : Option String := Option.none
  get_started_steps : List GetStartedStep := []
  directory_structure : List DirectoryEntry := []
  terminology : List TermDefinition := []
  marking_criteria : List MarkingCriterion := []
  prioritization_tiers : List PrioritizationTier := []
  recommended_schedule : List WeeklySchedule := []
  constraints : List String := []
  debugging_tips : List String := []
  extraction_warnings : List String := []
deriving Repr, DecidableEq

/-! ### Response schema mapper (`decompose_coursework` lines 259-428 and
`AnalysisAgent._parse_response` lines 109-257)

Python idioms as `Option`-returning helpers: a `none` inside a per-item
parser is the caught-and-skipped exception; a `.error` at the top level is
an uncaught `TypeError`/`ValidationError` escaping the mapper. -/

/-- Pydantic lax-mode validation of a `str` field value. -/
def pydStr : Json → Option String
  | .str s => some s
  | _ => Option.none

def pydStrList (l : List Json) : Option (List String) := l.mapM pydStr

/-- The idiom `list(d.get(k, [])) if d.get(k) else []` on a per-item
dict: `none` when `list(...)` raises or an element fails `list[str]`
validation. -/
def listStrField (fs : List (String × Json)) (k : String) :
    Option (List String) :=
  match dictGet fs k with
  | some v =>
    if pyTruthy v then
      match pyIter v with
      | some items => pydStrList items
      | Option.none => Option.none
    else some []
  | Option.none => some []

/-- The idiom `str(d.get(k, "")) if d.get(k) else None`. -/
def optStrField (fs : List (String × Json)) (k : String) : Option String :=
  match dictGet fs k with
  | some v => if pyTruthy v then some (pyStrOf v) else Option.none
  | Option.none => Option.none

/-- `str(d.get(k, default))`. -/
def strField (fs : List (String × Json)) (k : String) (dflt : String) :
    String :=
  pyStrOf ((dictGet fs k).getD (.str dflt))

/-- `_parse_priority` applied to the dynamic value
`task_data.get("priority")`.  Returns `none` (item skipped) only when the
returned Python value fails the pydantic `Optional[int]` field: a `bool`
(`isinstance(..., int)` is true for `bool`, but pydantic rejects
`bool` for `int`). -/
def parsePriorityOfJson : Option Json → Option (Option Int)
  | Option.none => some Option.none
  | some .null => some Option.none
  | some (.bool _) => Option.none
  | some (.num lex) =>
    match pyIntOfNumLex lex.data with
    | some i => some (some i)
    | Option.none => some (some (priorityKeywordLookup (pyStrOf (.num lex))))
  | some (.str s) =>
    some (match pyIntOfStr s with
          | some i => some i
          | Option.none => priorityKeywordLookup s)
  | some (v@(.arr _)) => some (some (priorityKeywordLookup (pyStrOf v)))
  | some (v@(.obj _)) => some (some (priorityKeywordLookup (pyStrOf v)))

/-- One iteration of the task loop of `decompose_coursework`
(lines 262-277); `idx` is `len(tasks)` at entry.  `none` means the
per-item `except Exception: continue`. -/
def parseTaskItem (idx : Nat) (task_data : Json) : Option Task :=
  match task_data with
  | .obj fs => do
    let rf ← listStrField fs "related_files"
    let cmds ← listStrField fs "commands"
    let prereqs ← listStrField fs "prerequisites"
    let prio ← parsePriorityOfJson (dictGet fs "priority")
    some
      { task_id := strField fs "task_id" ("t" ++ toString (idx + 1))
        title := strField fs "title" "Untitled Task"
        description := strField fs "description" ""
        estimated_time := strField fs "estimated_time" "Unknown"
        related_files := rf
        pdf_snippet := optStrField fs "pdf_snippet"
        commands := cmds
        prerequisites := prereqs
        status := strField fs "status" "todo"
        priority := prio }
  | _ => Option.none

/-- Task-loop iteration of `AnalysisAgent._parse_response`
(lines 112-127): identical except priority is
`int(task_data.get("priority")) if ... is not None else None`. -/
def parseTaskItemAgent (idx : Nat) (task_data : Json) : Option Task :=
  match task_data with
  | .obj fs => do
    let rf ← listStrField fs "related_files"
    let cmds ← listStrField fs "commands"
    let prereqs ← listStrField fs "prerequisites"
    let prio : Option Int ←
      match dictGet fs "priority" with
      | Option.none => some Option.none
      | some .null => some Option.none
      | some v =>
        match pyInt v with
        | some i => some (some i)
        | Option.none => Option.none
    some
      { task_id := strField fs "task_id" ("t" ++ toString (idx + 1))
        title := strField fs "title" "Untitled Task"
        description := strField fs "description" ""
        estimated_time := strField fs "estimated_time" "Unknown"
        related_files := rf
        pdf_snippet := optStrField fs "pdf_snippet"
        commands := cmds
        prerequisites := prereqs
        status := strField fs "status" "todo"
        priority := prio }
  | _ => Option.none

def parseMilestoneItem (idx : Nat) (j : Json) : Option Milestone :=
  match j with
  | .obj fs => do
    let ts ← listStrField fs "tasks"
    some
      { id := strField fs "id" ("m" ++ toString (idx + 1))
        title := strField fs "title" "Untitled Milestone"
        description := optStrField fs "description"
        summary := optStrField fs "summary"
        tasks := ts }
  | _ => Option.none

def parseTermItem (j : Json) : Option TermDefinition :=
  match j with
  | .obj fs =>
    some
      { term := strField fs "term" ""
        definition := strField fs "definition" ""
        «example» := optStrField fs "example" }
  | _ => Option.none

/-- `int(mc_data.get("percentage")) if ... is not None else None` — an
`is not None` test, not truthiness. -/
def parseMarkingItem (j : Json) : Option MarkingCriterion :=
  match j with
  | .obj fs => do
    let pct : Option Int ←
      match dictGet fs "percentage" with
      | Option.none => some Option.none
      | some .null => some Option.none
      | some v =>
        match pyInt v with
        | some i => some (some i)
        | Option.none => Option.none
    some
      { component := strField fs "component" ""
        percentage := pct
        description := strField fs "description" ""
        priority := strField fs "priority" "essential" }
  | _ => Option.none

def parseStepItem (idx : Nat) (j : Json) : Option GetStartedStep :=
  match j with
  | .obj fs => do
    let sn : Int ←
      match dictGet fs "step_number" with
      | Option.none => some (Int.ofNat (idx + 1))
      | some v => pyInt v
    let cmds ← listStrField fs "commands"
    some
      { step_number := sn
        title := strField fs "title" ""
        description := strField fs "description" ""
        commands := cmds
        expected_output := optStrField fs "expected_output" }
  | _ => Option.none

def parseTierItem (j : Json) : Option PrioritizationTier :=
  match j with
  | .obj fs => do
    let ids ← listStrField fs "task_ids"
    some
      { tier := strField fs "tier" ""
        description := strField fs "description" ""
        time_estimate := strField fs "time_estimate" ""
        task_ids := ids }
  | _ => Option.none

def parseWeekItem (idx : Nat) (j : Json) : Option WeeklySchedule :=
  match j with
  | .obj fs => do
    let wk : Int ←
      match dictGet fs "week" with
      | Option.none => some (Int.ofNat (idx + 1))
      | some v => pyInt v
    let ids ← listStrField fs "task_ids"
    let hrs : Int ←
      match dictGet fs "hours_estimate" with
      | Option.none => some 0
      | some v => pyInt v
    some
      { week := wk
        title := strField fs "title" ""
        task_ids := ids
        hours_estimate := hrs }
  | _ => Option.none

def parseDirItem (j : Json) : Option DirectoryEntry :=
  match j with
  | .obj fs =>
    some
      { path := strField fs "path" ""
        type := strField fs "type" "file"
        description := optStrField fs "description" }
  | _ => Option.none

/-- A `for item in data.get(k, [])` loop header: absent means `[]`,
non-iterable values raise `TypeError` out of the mapper. -/
def iterField (data : List (String × Json)) (k : String) :
    Except Unit (List Json) :=
  match pyIter ((dictGet data k).getD (.arr [])) with
  | some items => .ok items
  | Option.none => .error ()

/-- Accumulating loop with per-item skip; the accumulator length feeds
index-dependent defaults (`f"t{len(tasks)+1}"`). -/
def collectItems {α : Type} (parse : Nat → Json → Option α)
    (items : List Json) : List α :=
  items.foldl
    (fun acc it =>
      match parse acc.length it with
      | some x => acc ++ [x]
      | Option.none => acc)
    []

/-- `list(data.get(k, [])) if data.get(k) else []` in the final response
constructor: failures here (`TypeError` from `list`, `ValidationError`
from `list[str]`) escape the whole mapper. -/
def listStrFieldTop (data : List (String × Json)) (k : String) :
    Except Unit (List String) :=
  match dictGet data k with
  | some v =>
    if pyTruthy v then
      match pyIter v with
      | some items =>
        match pydStrList items with
        | some l => .ok l
        | Option.none => .error ()
      | Option.none => .error ()
    else .ok []
  | Option.none => .ok []

/-- The fallback task substituted by `decompose_coursework` when no tasks
were extracted (lines 383-389). -/
def fallbackTask : Task :=
  { task_id := "fallback-1"
    title := "Review Specifications Manually"
    description := "Could not extract specific tasks from your PDF. Please review your coursework specifications directly and create your own task breakdown."
    estimated_time := "Varies"
    status := "todo" }

/-- The fallback task of `AnalysisAgent._parse_response` (lines 225-231). -/
def fallbackTaskAgent : Task :=
  { task_id := "fallback-1"
    title := "Review Specifications Manually"
    description := "Could not extract specific tasks. Please review your coursework specifications directly."
    estimated_time := "Varies"
    status := "todo" }

/-- The `if not tasks:` fallback substitution (lines 381-389). -/
def tasksOrFallback (fb : Task) (tasks0 : List Task) : List Task :=
  if tasks0.isEmpty then [fb] else tasks0

/-- The `extraction_warnings` accumulation of `decompose_coursework`
(lines 378-403), written as one concatenation in the source's append
order. -/
def decompositionWarnings (data : List (String × Json)) (tasks0 : List Task)
    (marking_criteria : List MarkingCriterion)
    (prioritization_tiers : List PrioritizationTier)
    (get_started_steps : List GetStartedStep)
    (milestones : List Milestone) : List String :=
  (if tasks0.isEmpty then ["tasks"] else []) ++
  (if marking_criteria.isEmpty then ["marking_criteria"] else []) ++
  (if !pyTruthy ((dictGet data "deadline").getD .null) then ["deadline"]
   else []) ++
  (if !pyTruthy ((dictGet data "key_deliverables").getD .null) then
    ["key_deliverables"] else []) ++
  (if prioritization_tiers.isEmpty then ["prioritization_tiers"] else []) ++
  (if get_started_steps.isEmpty then ["get_started_steps"] else []) ++
  (if milestones.isEmpty then ["milestones"] else [])

/-- `extraction_warnings` of `AnalysisAgent._parse_response`
(lines 221-235): only tasks, marking_criteria and deadline. -/
def agentWarnings (data : List (String × Json)) (tasks0 : List Task)
    (marking_criteria : List MarkingCriterion) : List String :=
  (if tasks0.isEmpty then ["tasks"] else []) ++
  (if marking_criteria.isEmpty then ["marking_criteria"] else []) ++
  (if !pyTruthy ((dictGet data "deadline").getD .null) then ["deadline"]
   else [])

/-- The `DecompositionResponse(...)` constructor call of
`decompose_coursework` (lines 405-428), including the four `list[str]`
constructor fields whose failures escape the mapper. -/
def assembleDecomposition (data : List (String × Json)) (tasks0 : List Task)
    (milestones : List Milestone) (terminology : List TermDefinition)
    (marking_criteria : List MarkingCriterion)
    (get_started_steps : List GetStartedStep)
    (prioritization_tiers : List PrioritizationTier)
    (recommended_schedule : List WeeklySchedule)
    (directory_structure : List DirectoryEntry) :
    Except Unit DecompositionResponse := do
  let setup_instructions ← listStrFieldTop data "setup_instructions"
  let key_deliverables ← listStrFieldTop data "key_deliverables"
  let constraints ← listStrFieldTop data "constraints"
  let debugging_tips ← listStrFieldTop data "debugging_tips"
  .ok
    { tasks := tasksOrFallback fallbackTask tasks0
      milestones := milestones
      setup_instructions := setup_instructions
      course_name := optStrField data "course_name"
      total_estimated_time := optStrField data "total_estimated_time"
      summary_overview := optStrField data "summary_overview"
      key_deliverables := key_deliverables
      what_you_need_to_do := optStrField data "what_you_need_to_do"
      deadline := optStrField data "deadline"
      deadline_note := optStrField data "deadline_note"
      get_started_steps := get_started_steps
      directory_structure := directory_structure
      terminology := terminology
      marking_criteria := marking_criteria
      prioritization_tiers := prioritization_tiers
      recommended_schedule := recommended_schedule
      constraints := constraints
      debugging_tips := debugging_tips
      extraction_warnings := decompositionWarnings data tasks0
        marking_criteria prioritization_tiers get_started_steps milestones }

/-- Same for `AnalysisAgent._parse_response` (lines 237-257). -/
def assembleAgentResponse (data : List (String × Json)) (tasks0 : List Task)
    (milestones : List Milestone) (terminology : List TermDefinition)
    (marking_criteria : List MarkingCriterion)
    (get_started_steps : List GetStartedStep)
    (prioritization_tiers : List PrioritizationTier)
    (recommended_schedule : List WeeklySchedule)
    (directory_structure : List DirectoryEntry) :
    Except Unit DecompositionResponse := do
  let setup_instructions ← listStrFieldTop data "setup_instructions"
  let key_deliverables ← listStrFieldTop data "key_deliverables"
  let constraints ← listStrFieldTop data "constraints"
  let debugging_tips ← listStrFieldTop data "debugging_tips"
  .ok
    { tasks := tasksOrFallback fallbackTaskAgent tasks0
      milestones := milestones
      setup_instructions := setup_instructions
      course_name := optStrField data "course_name"
      total_estimated_time := optStrField data "total_estimated_time"
      summary_overview := optStrField data "summary_overview"
      key_deliverables := key_deliverables
      what_you_need_to_do := optStrField data "what_you_need_to_do"
      deadline := optStrField data "deadline"
      deadline_note := optStrField data "deadline_note"
      get_started_steps := get_started_steps
      directory_structure := directory_structure
      terminology := terminology
      marking_criteria := marking_criteria
      prioritization_tiers := prioritization_tiers
      recommended_schedule := recommended_schedule
      constraints := constraints
      debugging_tips := debugging_tips
      extraction_warnings := agentWarnings data tasks0 marking_criteria }

/-- The schema-mapping portion of `decompose_coursework` (lines 259-428),
applied to the decoded JSON dict: the eight per-field item loops in source
order, then warnings, fallback and the response constructor. -/
def mapDecomposition (data : List (String × Json)) :
    Except Unit DecompositionResponse := do
  let taskItems ← iterField data "tasks"
  let milestoneItems ← iterField data "milestones"
  let termItems ← iterField data "terminology"
  let mcItems ← iterField data "marking_criteria"
  let stepItems ← iterField data "get_started_steps"
  let tierItems ← iterField data "prioritization_tiers"
  let weekItems ← iterField data "recommended_schedule"
  let dirItems ← iterField data "directory_structure"
  assembleDecomposition data
    (collectItems parseTaskItem taskItems)
    (collectItems parseMilestoneItem milestoneItems)
    (collectItems (fun _ => parseTermItem) termItems)
    (collectItems (fun _ => parseMarkingItem) mcItems)
    (collectItems parseStepItem stepItems)
    (collectItems (fun _ => parseTierItem) tierItems)
    (collectItems parseWeekItem weekItems)
    (collectItems (fun _ => parseDirItem) dirItems)

/-- The schema-mapping portion of `AnalysisAgent._parse_response`
(lines 109-257): same loops, agent task parser, fallback description, and
only the tasks / marking_criteria / deadline warnings. -/
def mapAgentResponse (data : List (String × Json)) :
    Except Unit DecompositionResponse := do
  let taskItems ← iterField data "tasks"
  let milestoneItems ← iterField data "milestones"
  let termItems ← iterField data "terminology"
  let mcItems ← iterField data "marking_criteria"
  let stepItems ← iterField data "get_started_steps"
  let tierItems ← iterField data "prioritization_tiers"
  let weekItems ← iterField data "recommended_schedule"
  let dirItems ← iterField data "directory_structure"
  assembleAgentResponse data
    (collectItems parseTaskItemAgent taskItems)
    (collectItems parseMilestoneItem milestoneItems)
    (collectItems (fun _ => parseTermItem) termItems)
    (collectItems (fun _ => parseMarkingItem) mcItems)
    (collectItems parseStepItem stepItems)
    (collectItems (fun _ => parseTierItem) tierItems)
    (collectItems parseWeekItem weekItems)
    (collectItems (fun _ => parseDirItem) dirItems)

/-! ### Text truncation for analysis (`ai_decomposer.py` lines 232-235,
`analysis_agent.py` lines 46-51) -/

def max_chars : Nat := 50000

def decomposerTruncNotice : String := "\n\n[PDF text truncated for processing...]"

def analysisTruncNotice : String :=
  "\n\n[Text truncated - full content available for Q&A via chat]"

/-- `decompose_coursework`'s truncation: `pdf_text = pdf_text[:max_chars]
+ notice` only when over budget. -/
def truncateForDecomposer (pdf_text : String) : String :=
  if pdf_text.data.length > max_chars then
    String.mk (pdf_text.data.take max_chars) ++ decomposerTruncNotice
  else pdf_text

/-- `AnalysisAgent.execute`'s truncation: always slices, appends the
notice only when over budget. -/
def truncateForAnalysis (pdf_text : String) : String :=
  let t := String.mk (pdf_text.data.take max_chars)
  if pdf_text.data.length > max_chars then t ++ analysisTruncNotice else t

/-- `USER_PROMPT_TEMPLATE.format(pdf_content=...)` from
`prompts/decomposer.py` (text before / after the placeholder). -/
def userPromptOf (content : String) : String :=
  "Please analyze the following coursework specification and create a comprehensive Implementation Guide.\n\n## PDF Content\n\n"
  ++ content ++
  "\n\n---\n\nCreate a complete Implementation Guide with:\n1. Summary overview and key deliverables\n2. Deadline (or note if not found)\n3. Getting Started steps with commands\n4. Directory structure overview\n5. Terminology definitions for technical terms\n6. Marking criteria breakdown (or fallback note)\n7. Prioritization tiers (Essential/Strong/Excellence)\n8. Recommended weekly schedule\n9. Constraints and debugging tips\n10. Milestones and atomic tasks\n\nFocus on helping the student understand:\n- WHAT they need to build (not HOW to code it)\n- WHERE to start\n- WHAT order to work in\n- HOW their work will be graded\n\nRemember: Guide their planning, don't solve their problems."

/-- The human message of `AnalysisAgent.execute`'s prompt
(lines 56-65), with `pdf_content` substituted. -/
def analysisPromptOf (content : String) : String :=
  "Analyze this coursework specification and create a comprehensive Implementation Guide.\n\n## PDF Content\n\n"
  ++ content ++
  "\n\n---\n\nCreate a complete Implementation Guide with all required fields.\nReturn valid JSON only."

/-! ### End-to-end decomposition (`decompose_coursework`, lines 217-435)

The generative model is an oracle `gen` from the user prompt to either a
response text or a raised exception (`.error`, covering configuration and
network failures of `get_gemini_model`/`generate_content`). -/

def decompose_coursework (gen : String → Except Unit String)
    (pdf_text : String) : Except Unit DecompositionResponse :=
  let truncated := truncateForDecomposer pdf_text
  match gen (userPromptOf truncated) with
  | .error e => .error e
  | .ok response_text =>
    if response_text = "" then .error ()
    else
      let content := repair_json response_text
      match jsonLoads content with
      | Option.none => .error ()
      | some (.obj fields) => mapDecomposition fields
      | some _ => .error ()

/-- `AnalysisAgent._parse_response` (lines 95-257): repair, `json.loads`
(an exception propagates to `execute`'s handler, as does `data.get` on a
non-dict), then the agent mapper. -/
def parse_response (response_text : String) :
    Except Unit DecompositionResponse :=
  let cleaned := repair_json response_text
  match jsonLoads cleaned with
  | Option.none => .error ()
  | some (.obj fields) => mapAgentResponse fields
  | some _ => .error ()

/-- The `try` block of `AnalysisAgent.execute` (lines 71-77): invoke the
chain on the prompt built from the truncated text, then `_parse_response`;
either step may raise. -/
def analysisAttempt (chainGen : String → Except Unit String)
    (pdf_text : String) : Except Unit DecompositionResponse :=
  match chainGen (analysisPromptOf (truncateForAnalysis pdf_text)) with
  | .error e => .error e
  | .ok response_text => parse_response response_text

/-- `AnalysisAgent.execute` (lines 26-93), restricted to the decomposition
result: empty input raises `ValueError` before the guarded block; any
exception from the chain invocation or `_parse_response` falls back to the
legacy `decompose_coursework` on the untruncated text. -/
def analysis_execute (chainGen : String → Except Unit String)
    (legacyGen : String → Except Unit String) (pdf_text : String) :
    Except Unit DecompositionResponse :=
  if pdf_text = "" then .error ()
  else
    match analysisAttempt chainGen pdf_text with
    | .ok plan => .ok plan
    | .error _ => decompose_coursework legacyGen pdf_text

/-! ### Conversation memory (`qa_agent.py` lines 13-62)

The class-level `_sessions` dict is modelled as a total map with default
`[]` (only `get_history`/`add_message`/`add_exchange`, the operations the
claims touch, are modelled; a missing key and an empty list behave
identically for them). -/

inductive BMessage where
  | human : String → BMessage
  | ai : String → BMessage
deriving Repr, DecidableEq

def Sessions : Type := String → List BMessage

def emptySessions : Sessions := fun _ => []

def _max_history : Nat := 20

/-- Python `l[-n:]` for `n > 0`. -/
def lastN (n : Nat) (l : List BMessage) : List BMessage :=
  l.drop (l.length - n)

/-- `ConversationMemory.add_message`: append, then trim to the most
recent `_max_history` when over. -/
def add_message (st : Sessions) (sid : String) (m : BMessage) : Sessions :=
  fun k =>
    if k = sid then
      let l := st sid ++ [m]
      if l.length > _max_history then lastN _max_history l else l
    else st k

/-- `ConversationMemory.add_exchange`: user message then assistant
message. -/
def add_exchange (st : Sessions) (sid : String) (u a : String) : Sessions :=
  add_message (add_message st sid (.human u)) sid (.ai a)

/-- `ConversationMemory.get_history`: `history[-limit:] if limit else
history`; `limit = 0` models a falsy limit (`0`/`None`), returning the
whole stored history. -/
def get_history (st : Sessions) (sid : String) (limit : Nat) :
    List BMessage :=
  let history := st sid
  if limit ≠ 0 then history.drop (history.length - limit) else history

/-! ### PDF image extraction (`pdf_parser.py` lines 93-187)

A document is a list of pages, each a list of embedded-image entries as
returned by `page.get_images(full=True)`; `doc.extract_image` plus the
file write either yields width/height/ext or raises (`none`), in which
case the image is skipped. -/

structure RawImage where
  width : Nat
  height : Nat
  ext : String
deriving Repr, DecidableEq

structure ExtractedImage where
  page_number : Nat
  image_index : Nat
  width : Nat
  height : Nat
  filename : String
deriving Repr, DecidableEq

/-- The inner `for img_index, img_info in enumerate(image_list)` loop;
`count` is `image_count`, `pageNo` is `page_num + 1`.  Returns the
extracted entries of this page and the updated count. -/
def extractPageImages (maxImages minSize pageNo : Nat) :
    Nat → Nat → List (Option RawImage) → List ExtractedImage × Nat
  | count, _, [] => ([], count)
  | count, idx, oimg :: rest =>
    if count ≥ maxImages then ([], count)
    else
      match oimg with
      | Option.none => extractPageImages maxImages minSize pageNo count (idx + 1) rest
      | some im =>
        if im.width < minSize ∨ im.height < minSize then
          extractPageImages maxImages minSize pageNo count (idx + 1) rest
        else
          let entry : ExtractedImage :=
            { page_number := pageNo
              image_index := idx
              width := im.width
              height := im.height
              filename := "page" ++ toString pageNo ++ "_img" ++
                toString idx ++ "." ++ im.ext }
          let (res, c) :=
            extractPageImages maxImages minSize pageNo (count + 1) (idx + 1) rest
          (entry :: res, c)

/-- The outer page loop of `extract_images_from_pdf`. -/
def extractPages (maxImages minSize : Nat) :
    Nat → Nat → List (List (Option RawImage)) → List ExtractedImage
  | _, _, [] => []
  | count, pageNo, pg :: rest =>
    if count ≥ maxImages then []
    else
      let (es, c) := extractPageImages maxImages minSize pageNo count 0 pg
      es ++ extractPages maxImages minSize c (pageNo + 1) rest

def maxImagesDefault : Nat := 10
def minSizeDefault : Nat := 100

/-- The images extract_images_from_pdf would keep from one page ignoring
the cap: extraction succeeded and both dimensions reach `minSize`. -/
def validPageFrom (minSize pageNo idx : Nat) :
    List (Option RawImage) → List ExtractedImage
  | [] => []
  | Option.none :: rest => validPageFrom minSize pageNo (idx + 1) rest
  | some im :: rest =>
    if im.width < minSize ∨ im.height < minSize then
      validPageFrom minSize pageNo (idx + 1) rest
    else
      { page_number := pageNo
        image_index := idx
        width := im.width
        height := im.height
        filename := "page" ++ toString pageNo ++ "_img" ++
          toString idx ++ "." ++ im.ext } ::
        validPageFrom minSize pageNo (idx + 1) rest

/-- All sufficiently large, successfully extracted images of the whole
document, in page order, ignoring the cap. -/
def validFromPages (minSize : Nat) :
    Nat → List (List (Option RawImage)) → List ExtractedImage
  | _, [] => []
  | pageNo, pg :: rest =>
    validPageFrom minSize pageNo 0 pg ++ validFromPages minSize (pageNo + 1) rest

def validImages (minSize : Nat) (doc : List (List (Option RawImage))) :
    List ExtractedImage :=
  validFromPages minSize 1 doc

/-- `extract_images_from_pdf` (lines 93-187) on an opened document. -/
def extract_images_from_pdf (doc : List (List (Option RawImage)))
    (maxImages : Nat := maxImagesDefault) (minSize : Nat := minSizeDefault) :
    List ExtractedImage :=
  extractPages maxImages minSize 0 1 doc

/-! ## Theorems -/

/-! ### C6: priority normalization -/

/-- C6: `_parse_priority` maps "essential" to 0, "Strong" to 1, "bonus"
to 2, `None` to `None`, the integer 2 to 2, and the unrecognized string
"unrecognized-xyz" to the default 1; integers pass through unchanged
(keyword matching is the case-insensitive substring search over
`priority_map` by definition). -/
theorem claim_C6_priority_normalization :
    _parse_priority (.str "essential") = some 0 ∧
    _parse_priority (.str "Strong") = some 1 ∧
    _parse_priority (.str "bonus") = some 2 ∧
    _parse_priority PVal.none = Option.none ∧
    _parse_priority (.int 2) = some 2 ∧
    _parse_priority (.str "unrecognized-xyz") = some 1 ∧
    (∀ i : Int, _parse_priority (.int i) = some i) :=
  ⟨rfl, rfl, rfl, rfl, rfl, rfl, fun _ => rfl⟩

/-! ### C7: analysis text truncation -/

/-- C7: the analysis step hands the generative model exactly the first
50,000 characters of the text — unchanged when the text fits the budget,
with the truncation notice appended exactly when it is longer (both for
`AnalysisAgent.execute` and the legacy `decompose_coursework` path). -/
theorem claim_C7_truncation (s : String) :
    (s.data.length ≤ max_chars →
      truncateForAnalysis s = s ∧ truncateForDecomposer s = s) ∧
    (max_chars < s.data.length →
      truncateForAnalysis s =
        String.mk (s.data.take max_chars) ++ analysisTruncNotice ∧
      truncateForDecomposer s =
        String.mk (s.data.take max_chars) ++ decomposerTruncNotice) := by
  constructor
  · intro h
    constructor
    · unfold truncateForAnalysis
      rw [if_neg (by omega)]
      rw [List.take_of_length_le h]
    · unfold truncateForDecomposer
      rw [if_neg (by omega)]
  · intro h
    constructor
    · unfold truncateForAnalysis
      rw [if_pos (by omega)]
    · unfold truncateForDecomposer
      rw [if_pos (by omega)]

theorem claim_C7_truncation_witness :
    ("abc" : String).data.length ≤ max_chars ∧
      truncateForAnalysis "abc" = "abc" :=
  ⟨by decide, ((claim_C7_truncation "abc").1 (by decide)).1⟩

/-! ### C9: image extraction filter and cap -/

theorem validPageFrom_sizes (minSize pageNo idx : Nat)
    (pg : List (Option RawImage)) :
    ∀ e ∈ validPageFrom minSize pageNo idx pg,
      minSize ≤ e.width ∧ minSize ≤ e.height := by
  induction pg generalizing idx with
  | nil => intro e he; simp [validPageFrom] at he
  | cons o rest ih =>
    intro e he
    match o with
    | Option.none => exact ih (idx + 1) e he
    | some im =>
      simp only [validPageFrom] at he
      split at he
      · exact ih (idx + 1) e he
      · rename_i hcond
        rw [List.mem_cons] at he
        rcases he with rfl | he
        · constructor <;> simp <;> omega
        · exact ih (idx + 1) e he

theorem validFromPages_sizes (minSize : Nat) (pageNo : Nat)
    (doc : List (List (Option RawImage))) :
    ∀ e ∈ validFromPages minSize pageNo doc,
      minSize ≤ e.width ∧ minSize ≤ e.height := by
  induction doc generalizing pageNo with
  | nil => intro e he; simp [validFromPages] at he
  | cons pg rest ih =>
    intro e he
    simp only [validFromPages, List.mem_append] at he
    rcases he with he | he
    · exact validPageFrom_sizes minSize pageNo 0 pg e he
    · exact ih (pageNo + 1) e he

theorem extractPageImages_eq (maxImages minSize pageNo : Nat) :
    ∀ (pg : List (Option RawImage)) (count idx : Nat), count ≤ maxImages →
      extractPageImages maxImages minSize pageNo count idx pg =
        ((validPageFrom minSize pageNo idx pg).take (maxImages - count),
          count + min (maxImages - count)
            (validPageFrom minSize pageNo idx pg).length) := by
  intro pg
  induction pg with
  | nil => intro count idx _; simp [extractPageImages, validPageFrom]
  | cons o rest ih =>
    intro count idx hle
    by_cases hfull : count ≥ maxImages
    · have hc : count = maxImages := by omega
      subst hc
      simp [extractPageImages, Nat.sub_self]
    · have hlt : count < maxImages := by omega
      match o with
      | Option.none =>
        simp only [extractPageImages, if_neg hfull, validPageFrom]
        exact ih count (idx + 1) hle
      | some im =>
        by_cases hsmall : im.width < minSize ∨ im.height < minSize
        · simp only [extractPageImages, if_neg hfull, validPageFrom,
            if_pos hsmall]
          exact ih count (idx + 1) hle
        · simp only [extractPageImages, if_neg hfull, validPageFrom,
            if_neg hsmall]
          rw [ih (count + 1) (idx + 1) (by omega)]
          obtain ⟨k, hk⟩ : ∃ k, maxImages - count = k + 1 :=
            ⟨maxImages - count - 1, by omega⟩
          have hk2 : maxImages - (count + 1) = k := by omega
          rw [hk, hk2]
          simp only [List.take_succ_cons, List.length_cons, Prod.mk.injEq,
            true_and]
          rw [Nat.succ_min_succ]
          omega

theorem extractPages_eq (maxImages minSize : Nat) :
    ∀ (doc : List (List (Option RawImage))) (count pageNo : Nat),
      count ≤ maxImages →
      extractPages maxImages minSize count pageNo doc =
        (validFromPages minSize pageNo doc).take (maxImages - count) := by
  intro doc
  induction doc with
  | nil => intro count pageNo _; simp [extractPages, validFromPages]
  | cons pg rest ih =>
    intro count pageNo hle
    by_cases hfull : count ≥ maxImages
    · have hc : count = maxImages := by omega
      subst hc
      simp [extractPages, Nat.sub_self]
    · simp only [extractPages, if_neg hfull, validFromPages]
      rw [extractPageImages_eq maxImages minSize pageNo pg count 0 hle]
      set v0 := validPageFrom minSize pageNo 0 pg with hv0
      rw [ih (count + min (maxImages - count) v0.length) (pageNo + 1)
        (by omega)]
      rw [List.take_append_eq_append_take]
      have harith : maxImages - (count + min (maxImages - count) v0.length) =
          maxImages - count - v0.length := by omega
      rw [harith]

/-- C9: image extraction keeps exactly the large-enough successfully
extracted images in document order up to the cap: every returned image has
both dimensions at least `min_size`, at most `max_images` images are
returned, and undersized or failed images never count toward the cap
(the result is the prefix of the uncapped filtered list). -/
theorem claim_C9_image_extraction (doc : List (List (Option RawImage)))
    (maxImages minSize : Nat) :
    extract_images_from_pdf doc maxImages minSize =
      (validImages minSize doc).take maxImages ∧
    (extract_images_from_pdf doc maxImages minSize).length ≤ maxImages ∧
    (∀ e ∈ extract_images_from_pdf doc maxImages minSize,
      minSize ≤ e.width ∧ minSize ≤ e.height) ∧
    (extract_images_from_pdf doc).length ≤ maxImagesDefault ∧
    (∀ e ∈ extract_images_from_pdf doc,
      minSizeDefault ≤ e.width ∧ minSizeDefault ≤ e.height) := by
  have hmain : ∀ mi ms, extract_images_from_pdf doc mi ms =
      (validImages ms doc).take mi := by
    intro mi ms
    unfold extract_images_from_pdf validImages
    rw [extractPages_eq mi ms doc 0 1 (by omega)]
    rw [Nat.sub_zero]
  have hlen : ∀ mi ms, (extract_images_from_pdf doc mi ms).length ≤ mi := by
    intro mi ms
    rw [hmain]
    calc ((validImages ms doc).take mi).length
        = min mi (validImages ms doc).length := List.length_take _ _
      _ ≤ mi := Nat.min_le_left _ _
  have hmem : ∀ mi ms, ∀ e ∈ extract_images_from_pdf doc mi ms,
      ms ≤ e.width ∧ ms ≤ e.height := by
    intro mi ms e he
    rw [hmain] at he
    exact validFromPages_sizes ms 1 doc e (List.mem_of_mem_take he)
  exact ⟨hmain maxImages minSize, hlen maxImages minSize,
    hmem maxImages minSize, hlen maxImagesDefault minSizeDefault,
    hmem maxImagesDefault minSizeDefault⟩

/-! ### C5: conversation memory bound -/

theorem lastN_eq_reverse_take (k : Nat) (l : List BMessage) :
    lastN k l = (l.reverse.take k).reverse := by
  rw [List.take_reverse, List.reverse_reverse]
  rfl

theorem lastN_length_le (k : Nat) (l : List BMessage) :
    (lastN k l).length ≤ k := by
  unfold lastN
  rw [List.length_drop]
  omega

theorem lastN_of_length_le (k : Nat) (l : List BMessage)
    (h : l.length ≤ k) : lastN k l = l := by
  unfold lastN
  rw [Nat.sub_eq_zero_of_le h, List.drop_zero]

/-- Re-truncating after appending more messages equals truncating once at
the end. -/
theorem lastN_append_lastN (k : Nat) (l m : List BMessage) :
    lastN k (lastN k l ++ m) = lastN k (l ++ m) := by
  rw [lastN_eq_reverse_take, lastN_eq_reverse_take,
    lastN_eq_reverse_take]
  rw [List.reverse_append, List.reverse_reverse, List.reverse_append]
  rw [List.take_append_eq_append_take, List.take_append_eq_append_take]
  rw [List.take_take]
  rw [Nat.min_eq_left (Nat.sub_le k m.reverse.length)]

theorem add_message_self (st : Sessions) (sid : String) (m : BMessage) :
    (add_message st sid m) sid = lastN _max_history (st sid ++ [m]) := by
  unfold add_message
  rw [if_pos rfl]
  show (if (st sid ++ [m]).length > _max_history then
      lastN _max_history (st sid ++ [m]) else (st sid ++ [m])) = _
  split
  · rfl
  · rename_i h
    rw [lastN_of_length_le _ _ (by omega)]

theorem add_exchange_self (st : Sessions) (sid : String) (u a : String) :
    (add_exchange st sid u a) sid =
      lastN _max_history (st sid ++ [.human u, .ai a]) := by
  unfold add_exchange
  rw [add_message_self, add_message_self, lastN_append_lastN,
    List.append_assoc]
  rfl

/-- The interleaved message list of a sequence of exchanges. -/
def msgsOf (ps : List (String × String)) : List BMessage :=
  ps.flatMap (fun p => [.human p.1, .ai p.2])

theorem msgsOf_length (ps : List (String × String)) :
    (msgsOf ps).length = 2 * ps.length := by
  induction ps with
  | nil => rfl
  | cons p rest ih =>
    simp only [msgsOf, List.flatMap_cons, List.length_append,
      List.length_cons, List.length_nil] at ih ⊢
    omega

theorem foldl_add_exchange (sid : String) (ps : List (String × String)) :
    ∀ st : Sessions, (st sid).length ≤ _max_history →
      (ps.foldl (fun st p => add_exchange st sid p.1 p.2) st) sid =
        lastN _max_history (st sid ++ msgsOf ps) := by
  induction ps with
  | nil =>
    intro st h
    simp only [List.foldl_nil, msgsOf, List.flatMap_nil, List.append_nil]
    rw [lastN_of_length_le _ _ h]
  | cons p rest ih =>
    intro st h
    simp only [List.foldl_cons]
    rw [ih (add_exchange st sid p.1 p.2)
      (by rw [add_exchange_self]; exact lastN_length_le _ _)]
    rw [add_exchange_self, lastN_append_lastN, List.append_assoc]
    rfl

/-- C5: `add_exchange` appends the user then the assistant message and
trims to the 20 most recent messages (oldest first dropped); after 25
sequential exchanges (50 messages) on one fresh session, `get_history`
with a falsy limit returns exactly 20 messages — the 20 most recent, in
original order. -/
theorem claim_C5_conversation_memory :
    (∀ (st : Sessions) (sid : String) (u a : String),
      (add_exchange st sid u a) sid =
        lastN _max_history (st sid ++ [.human u, .ai a]) ∧
      ((add_exchange st sid u a) sid).length ≤ _max_history) ∧
    (∀ (sid : String) (ps : List (String × String)), ps.length = 25 →
      get_history
        (ps.foldl (fun st p => add_exchange st sid p.1 p.2) emptySessions)
        sid 0 = (msgsOf ps).drop 30 ∧
      (get_history
        (ps.foldl (fun st p => add_exchange st sid p.1 p.2) emptySessions)
        sid 0).length = 20) := by
  constructor
  · intro st sid u a
    refine ⟨add_exchange_self st sid u a, ?_⟩
    rw [add_exchange_self]
    exact lastN_length_le _ _
  · intro sid ps hlen
    have hfold := foldl_add_exchange sid ps emptySessions (by simp [emptySessions])
    have hmsg : (msgsOf ps).length = 50 := by rw [msgsOf_length, hlen]
    have hget : get_history
        (ps.foldl (fun st p => add_exchange st sid p.1 p.2) emptySessions)
        sid 0 = (msgsOf ps).drop 30 := by
      unfold get_history
      rw [if_neg (by simp)]
      rw [hfold]
      show lastN _max_history ([] ++ msgsOf ps) = _
      rw [List.nil_append]
      unfold lastN
      rw [hmsg]
      rfl
    refine ⟨hget, ?_⟩
    rw [hget, List.length_drop, hmsg]

theorem claim_C5_conversation_memory_witness :
    (List.replicate 25 (("u", "a") : String × String)).length = 25 ∧
    get_history
      ((List.replicate 25 (("u", "a") : String × String)).foldl
        (fun st p => add_exchange st "s" p.1 p.2) emptySessions)
      "s" 0 = (msgsOf (List.replicate 25 ("u", "a"))).drop 30 :=
  ⟨by decide,
    (claim_C5_conversation_memory.2 "s" (List.replicate 25 ("u", "a"))
      (by decide)).1⟩

/-! ### Helper lemmas about the scan and the parser -/

theorem scanGo_nil (acc stack : List Char) (inStr esc : Bool) :
    scanGo [] acc stack inStr esc = (acc, stack, inStr) := rfl

theorem scanGo_esc (c : Char) (rest acc stack : List Char) (inStr : Bool) :
    scanGo (c :: rest) acc stack inStr true =
      scanGo rest (acc ++ [c]) stack inStr false := by
  simp [scanGo]

theorem scanGo_backslash (rest acc stack : List Char) :
    scanGo ('\\' :: rest) acc stack true false =
      scanGo rest (acc ++ ['\\']) stack true true := by
  simp [scanGo]

theorem scanGo_quote (rest acc stack : List Char) (b : Bool) :
    scanGo ('"' :: rest) acc stack b false =
      scanGo rest (acc ++ ['"']) stack (!b) false := by
  rcases b <;> simp [scanGo]

theorem scanGo_inStr_plain (c : Char) (rest acc stack : List Char)
    (h1 : c ≠ '\\') (h2 : c ≠ '"') (h3 : c ≠ '\n') (h4 : c ≠ '\r')
    (h5 : c ≠ '\t') :
    scanGo (c :: rest) acc stack true false =
      scanGo rest (acc ++ [c]) stack true false := by
  simp [scanGo, h1, h2, h3, h4, h5]

theorem scanGo_out_cont (c : Char) (rest acc stack : List Char)
    (h2 : c ≠ '"')
    (hnb : ¬(stackUpd c stack = [] ∧ (acc ++ [c]).head? = some '{')) :
    scanGo (c :: rest) acc stack false false =
      scanGo rest (acc ++ [c]) (stackUpd c stack) false false := by
  simp only [scanGo, if_neg (by simp : ¬(false = true)),
    if_neg (by simp : ¬(c = '\\' ∧ false = true)), if_neg h2,
    if_neg (by simp : ¬(false = true)), if_neg hnb]

theorem scanGo_out_break (c : Char) (rest acc stack : List Char)
    (h2 : c ≠ '"')
    (hb : stackUpd c stack = [] ∧ (acc ++ [c]).head? = some '{') :
    scanGo (c :: rest) acc stack false false =
      (acc ++ [c], stackUpd c stack, false) := by
  simp only [scanGo, if_neg (by simp : ¬(false = true)),
    if_neg (by simp : ¬(c = '\\' ∧ false = true)), if_neg h2,
    if_neg (by simp : ¬(false = true)), if_pos hb]

theorem stackUpd_open_brace (stack : List Char) :
    stackUpd '{' stack = '{' :: stack := by
  simp [stackUpd]

theorem stackUpd_open_bracket (stack : List Char) :
    stackUpd '[' stack = '[' :: stack := by
  simp [stackUpd]

theorem stackUpd_plain (c : Char) (stack : List Char)
    (h1 : c ≠ '{') (h2 : c ≠ '[') (h3 : c ≠ '}') (h4 : c ≠ ']') :
    stackUpd c stack = stack := by
  simp [stackUpd, h1, h2, h3, h4]

theorem stackUpd_close_brace (stack : List Char) :
    stackUpd '}' ('{' :: stack) = stack := by
  simp [stackUpd]

theorem stackUpd_close_bracket (stack : List Char) :
    stackUpd ']' ('[' :: stack) = stack := by
  simp [stackUpd]

/-- The push step never breaks (the new stack is nonempty). -/
theorem scanGo_open_brace (rest acc stack : List Char) :
    scanGo ('{' :: rest) acc stack false false =
      scanGo rest (acc ++ ['{']) ('{' :: stack) false false := by
  rw [scanGo_out_cont '{' rest acc stack (by decide)
    (by rw [stackUpd_open_brace]; simp), stackUpd_open_brace]

theorem scanGo_open_bracket (rest acc stack : List Char) :
    scanGo ('[' :: rest) acc stack false false =
      scanGo rest (acc ++ ['[']) ('[' :: stack) false false := by
  rw [scanGo_out_cont '[' rest acc stack (by decide)
    (by rw [stackUpd_open_bracket]; simp), stackUpd_open_bracket]

/-- The scan only ever appends to the accumulated `result`. -/
theorem scanGo_acc_prefix (cs : List Char) :
    ∀ acc stack inStr esc,
      ∃ t, (scanGo cs acc stack inStr esc).1 = acc ++ t := by
  induction cs with
  | nil => intro acc stack inStr esc; exact ⟨[], by simp [scanGo]⟩
  | cons c rest ih =>
    intro acc stack inStr esc
    unfold scanGo
    split_ifs with hesc hbs hq hstr hn hr ht hbrk
    all_goals try exact ⟨[c], rfl⟩
    all_goals
      first
      | (obtain ⟨t, hrec⟩ := ih (acc ++ [c]) _ _ _
         exact ⟨[c] ++ t, by rw [hrec, List.append_assoc]⟩)
      | (obtain ⟨t, hrec⟩ := ih (acc ++ ['\\', 'n']) _ _ _
         exact ⟨['\\', 'n'] ++ t, by rw [hrec, List.append_assoc]⟩)
      | (obtain ⟨t, hrec⟩ := ih (acc ++ ['\\', 'r']) _ _ _
         exact ⟨['\\', 'r'] ++ t, by rw [hrec, List.append_assoc]⟩)
      | (obtain ⟨t, hrec⟩ := ih (acc ++ ['\\', 't']) _ _ _
         exact ⟨['\\', 't'] ++ t, by rw [hrec, List.append_assoc]⟩)

/-- The first character of the scanned text heads the scan result. -/
theorem scanGo_head (c : Char) (rest : List Char) (hq : c ≠ '"') :
    ∃ t, (scanGo (c :: rest) [] [] false false).1 = c :: t := by
  by_cases hbrk : stackUpd c [] = [] ∧ (([] : List Char) ++ [c]).head? = some '{'
  · rw [scanGo_out_break c rest [] [] hq hbrk]
    exact ⟨[], rfl⟩
  · rw [scanGo_out_cont c rest [] [] hq hbrk]
    obtain ⟨t, ht⟩ := scanGo_acc_prefix rest [c] (stackUpd c []) false false
    exact ⟨t, by simpa using ht⟩

theorem pyFindChar_drop_head (ch : Char) (l : List Char) :
    ∀ i, pyFindChar ch l = some i → (l.drop i).head? = some ch := by
  induction l with
  | nil => intro i h; simp [pyFindChar] at h
  | cons x xs ih =>
    intro i h
    unfold pyFindChar at h
    by_cases hx : x = ch
    · rw [if_pos hx] at h
      injection h with h
      subst h
      simpa using hx
    · rw [if_neg hx] at h
      rcases hj : pyFindChar ch xs with - | j
      · rw [hj] at h; simp at h
      · rw [hj] at h
        have h2 : some (j + 1) = some i := h
        injection h2 with h2
        subst h2
        exact ih j hj

theorem pyFindChar_none_of_not_mem (ch : Char) (l : List Char)
    (h : ch ∉ l) : pyFindChar ch l = none := by
  induction l with
  | nil => rfl
  | cons x xs ih =>
    unfold pyFindChar
    rw [if_neg (by intro hx; exact h (hx ▸ List.mem_cons_self x xs))]
    rw [ih (fun hm => h (List.mem_cons_of_mem x hm))]
    rfl

/-- A successful parse of a text that starts with `{` yields an object. -/
theorem parseVal_head_obj (n : Nat) (l : List Char) (v : Json)
    (rest : List Char) (hp : parseVal n l = some (v, rest))
    (hh : l.head? = some '{') : v.isObj = true := by
  cases n with
  | zero => simp [parseVal] at hp
  | succ m =>
    cases l with
    | nil => simp at hh
    | cons c r =>
      have hc : c = '{' := by simpa using hh
      subst hc
      rw [parseVal] at hp
      rw [if_pos rfl] at hp
      split at hp
      · rename_i fs rr _
        injection hp with hp
        rw [Prod.mk.injEq] at hp
        obtain ⟨h1, -⟩ := hp
        rw [← h1]
        rfl
      · exact absurd hp (by simp)

theorem jsonLoadsL_head_obj (l : List Char) (v : Json)
    (hp : jsonLoadsL l = some v) (hh : l.head? = some '{') :
    v.isObj = true := by
  unfold jsonLoadsL at hp
  have hskip : skipWs l = l := by
    cases l with
    | nil => simp at hh
    | cons c r =>
      have hc : c = '{' := by simpa using hh
      subst hc
      unfold skipWs
      rw [List.dropWhile_cons_of_neg (by decide)]
  rw [hskip] at hp
  rcases hpv : parseVal (2 * l.length + 2) l with - | pr
  · rw [hpv] at hp; simp at hp
  · obtain ⟨w, rr⟩ := pr
    rw [hpv] at hp
    simp only at hp
    split at hp
    · injection hp with hp
      subst hp
      exact parseVal_head_obj _ l w rr hpv hh
    · exact absurd hp (by simp)

/-! ### C1, C4, C10: the repair decoder -/

theorem repairCandidate_head (r : List Char) :
    ∃ l, repairCandidate ('{' :: r) = '{' :: l := by
  unfold repairCandidate
  rw [scanGo_open_brace]
  simp only [List.nil_append]
  obtain ⟨t, ht⟩ := scanGo_acc_prefix r ['{'] ['{'] false false
  rw [ht]
  refine ⟨(t ++ if (scanGo r ['{'] ['{'] false false).2.2 = true
      then ['"'] else []) ++
    closeStack (scanGo r ['{'] ['{'] false false).2.1, ?_⟩
  simp

theorem removeTrailingCommas_cons_of_ne (c : Char) (l : List Char)
    (h : c ≠ ',') :
    removeTrailingCommas (c :: l) = c :: removeTrailingCommas l := by
  simp only [removeTrailingCommas]
  rw [if_neg (by simp [h])]

theorem secondPass_head (l : List Char) :
    ∃ l2, secondPass ('{' :: l) = '{' :: l2 := by
  unfold secondPass
  rw [removeTrailingCommas_cons_of_ne '{' l (by decide)]
  rcases rfindChar '}' ('{' :: removeTrailingCommas l) with - | k
  · exact ⟨_, rfl⟩
  · simp only
    split
    · rw [List.take_succ_cons]
      exact ⟨_, rfl⟩
    · exact ⟨_, rfl⟩

/-- Every `repair_json` output is either the literal `{}` or a validated
JSON text starting with `{`. -/
theorem repair_json_shape (s : String) :
    repair_json s = emptyObjStr ∨
      ∃ l, repair_json s = String.mk ('{' :: l) ∧
        (jsonLoadsL ('{' :: l)).isSome = true := by
  unfold repair_json
  split
  · exact Or.inl rfl
  · split
    · exact Or.inl rfl
    · rename_i start hfind
      obtain ⟨r, hr⟩ : ∃ r, (preprocess s).drop start = '{' :: r := by
        have hh := pyFindChar_drop_head '{' (preprocess s) start hfind
        cases hd : (preprocess s).drop start with
        | nil => rw [hd] at hh; simp at hh
        | cons c rr =>
          rw [hd] at hh
          simp only [List.head?_cons] at hh
          injection hh with hh
          exact ⟨rr, by rw [hh]⟩
      rw [hr]
      obtain ⟨l1, hl1⟩ := repairCandidate_head r
      rw [hl1]
      split
      · rename_i hok
        exact Or.inr ⟨l1, rfl, hok⟩
      · obtain ⟨l2, hl2⟩ := secondPass_head l1
        rw [hl2]
        split
        · rename_i hok2
          exact Or.inr ⟨l2, rfl, hok2⟩
        · exact Or.inl rfl

/-- C1: for every input string — empty, binary garbage, truncated fenced
blocks included — `repair_json` terminates (it is a total function) and
returns a string that `json.loads` accepts, in the worst case `"{}"`. -/
theorem claim_C1_repair_total (s : String) :
    (jsonLoads (repair_json s)).isSome = true := by
  rcases repair_json_shape s with h | ⟨l, h, hok⟩
  · rw [h]; rfl
  · rw [h]; exact hok

theorem claim_C1_repair_total_witness :
    (jsonLoads (repair_json "")).isSome = true :=
  claim_C1_repair_total ""

/-- C10: when the stripped, fence-removed input contains no `{` — e.g.
valid non-object JSON such as a top-level array — `repair_json` returns
exactly `"{}"`; and whatever the input, a successful parse of the output
is always a JSON object. -/
theorem claim_C10_objects_only :
    (∀ s : String, '{' ∉ preprocess s → repair_json s = emptyObjStr) ∧
    (∀ (s : String) (v : Json), jsonLoads (repair_json s) = some v →
      v.isObj = true) := by
  constructor
  · intro s hmem
    unfold repair_json
    split
    · rfl
    · rw [pyFindChar_none_of_not_mem '{' (preprocess s) hmem]
  · intro s v hv
    rcases repair_json_shape s with h | ⟨l, h, hok⟩
    · rw [h] at hv
      have hv' : some (Json.obj []) = some v := by rw [← hv]; rfl
      injection hv' with hv'
      rw [← hv']
      rfl
    · rw [h] at hv
      exact jsonLoadsL_head_obj ('{' :: l) v hv rfl

theorem claim_C10_objects_only_witness :
    ('{' ∉ preprocess "[1, 2]" ∧ repair_json "[1, 2]" = emptyObjStr) ∧
    (Json.obj [("a", Json.num "1")]).isObj = true :=
  ⟨⟨by decide, claim_C10_objects_only.1 "[1, 2]" (by decide)⟩,
    claim_C10_objects_only.2 "\x7b\"a\": 1\x7d" (Json.obj [("a", Json.num "1")])
      (by rfl)⟩

def c4Input : String := "\x7b\"a\": [1, 2, \x7b\"b\": \"unterminated"

/-- C4: on `'{"a": [1, 2, {"b": "unterminated'` the decoder closes the
dangling string with a synthetic quote and all three open brackets, and
the result parses to an object whose field `a` is the list `[1, 2,
{"b": "unterminated"}]`. -/
theorem claim_C4_bracket_recovery :
    repair_json c4Input =
      "\x7b\"a\": [1, 2, \x7b\"b\": \"unterminated\"\x7d]\x7d" ∧
    jsonLoads (repair_json c4Input) =
      some (Json.obj [("a", Json.arr [Json.num "1", Json.num "2",
        Json.obj [("b", Json.str "unterminated")]])]) :=
  ⟨rfl, rfl⟩

/-! ### C2: mapper fallback invariant -/

theorem exceptBind_ok {α β : Type} (x : Except Unit α)
    (f : α → Except Unit β) (b : β) :
    (x >>= f) = .ok b ↔ ∃ a, x = .ok a ∧ f a = .ok b := by
  cases x <;> simp [Bind.bind, Except.bind]

theorem collectItems_foldl_fix {α : Type} (p : Nat → Json → Option α)
    (hp : ∀ n s, p n (Json.str s) = Option.none) (items : List Json)
    (hstr : ∀ x ∈ items, ∃ s, x = Json.str s) :
    ∀ acc, items.foldl
      (fun acc it =>
        match p acc.length it with
        | some x => acc ++ [x]
        | Option.none => acc) acc = acc := by
  induction items with
  | nil => intro acc; rfl
  | cons it rest ih =>
    intro acc
    obtain ⟨s, rfl⟩ := hstr it (List.mem_cons_self it rest)
    rw [List.foldl_cons]
    rw [show (match p acc.length (Json.str s) with
        | some x => acc ++ [x]
        | Option.none => acc) = acc from by rw [hp acc.length s]]
    exact ih (fun x hx => hstr x (List.mem_cons_of_mem _ hx)) acc

theorem collectItems_eq_nil {α : Type} (p : Nat → Json → Option α)
    (hp : ∀ n s, p n (Json.str s) = Option.none) (items : List Json)
    (hstr : ∀ x ∈ items, ∃ s, x = Json.str s) :
    collectItems p items = [] :=
  collectItems_foldl_fix p hp items hstr []

theorem pyIter_str_items (v : Json) (hv : v.isArr = false)
    (items : List Json) (h : pyIter v = some items) :
    ∀ x ∈ items, ∃ s, x = Json.str s := by
  cases v with
  | arr l => simp [Json.isArr] at hv
  | str s =>
    intro x hx
    unfold pyIter at h
    injection h with h
    subst h
    simp only [List.mem_map] at hx
    obtain ⟨c, -, rfl⟩ := hx
    exact ⟨_, rfl⟩
  | obj fs =>
    intro x hx
    unfold pyIter at h
    injection h with h
    subst h
    simp only [List.mem_map] at hx
    obtain ⟨k, -, rfl⟩ := hx
    exact ⟨_, rfl⟩
  | null => simp [pyIter] at h
  | bool b => simp [pyIter] at h
  | num lex => simp [pyIter] at h

/-- The C2 precondition: the raw `tasks` field is absent, the empty list,
or not a list at all. -/
def tasksFieldBad (data : List (String × Json)) : Prop :=
  dictGet data "tasks" = Option.none ∨
  dictGet data "tasks" = some (Json.arr []) ∨
  (∃ v, dictGet data "tasks" = some v ∧ v.isArr = false)

theorem tasksFieldBad_collect_nil {α : Type} (p : Nat → Json → Option α)
    (hp : ∀ n s, p n (Json.str s) = Option.none)
    (data : List (String × Json)) (taskItems : List Json)
    (hbad : tasksFieldBad data)
    (hok : iterField data "tasks" = .ok taskItems) :
    collectItems p taskItems = [] := by
  rcases hbad with hb | hb | ⟨v, hb, hv⟩
  · unfold iterField at hok
    rw [hb] at hok
    have h2 : Except.ok ([] : List Json) = Except.ok taskItems := hok
    injection h2 with h2
    subst h2
    rfl
  · unfold iterField at hok
    rw [hb] at hok
    have h2 : Except.ok ([] : List Json) = Except.ok taskItems := hok
    injection h2 with h2
    subst h2
    rfl
  · unfold iterField at hok
    rw [hb] at hok
    simp only [Option.getD_some] at hok
    rcases hit : pyIter v with - | items
    · rw [hit] at hok; exact absurd hok (by simp)
    · rw [hit] at hok
      have h2 : Except.ok items = Except.ok taskItems := hok
      injection h2 with h2
      subst h2
      exact collectItems_eq_nil p hp items (pyIter_str_items v hv items hit)

theorem parseTaskItem_str (n : Nat) (s : String) :
    parseTaskItem n (Json.str s) = Option.none := rfl

theorem parseTaskItemAgent_str (n : Nat) (s : String) :
    parseTaskItemAgent n (Json.str s) = Option.none := rfl

theorem tasksOrFallback_len (fb : Task) (l : List Task) :
    1 ≤ (tasksOrFallback fb l).length := by
  unfold tasksOrFallback
  split
  · simp
  · rename_i h
    cases l with
    | nil => simp at h
    | cons a t => simp only [List.length_cons]; omega

/-- C2 (amended): whenever the mapper returns a plan, the plan has at
least one task; and if additionally the raw `tasks` field was absent,
empty, or not a list, the plan's tasks are exactly the fallback task and
`"tasks"` is in `extraction_warnings` — for both the legacy mapper and the
analysis-agent mapper.  (When `tasks` is a non-iterable value — `null`, a
number or a boolean — the mapper raises instead of returning a plan, see
the counterexample; so no plan with zero tasks is ever returned.) -/
theorem claim_C2_mapper_fallback :
    (∀ (data : List (String × Json)) (plan : DecompositionResponse),
      mapDecomposition data = .ok plan →
      1 ≤ plan.tasks.length ∧
      (tasksFieldBad data →
        plan.tasks = [fallbackTask] ∧
        "tasks" ∈ plan.extraction_warnings)) ∧
    (∀ (data : List (String × Json)) (plan : DecompositionResponse),
      mapAgentResponse data = .ok plan →
      1 ≤ plan.tasks.length ∧
      (tasksFieldBad data →
        plan.tasks = [fallbackTaskAgent] ∧
        "tasks" ∈ plan.extraction_warnings)) := by
  constructor
  · intro data plan h
    rw [mapDecomposition] at h
    rw [exceptBind_ok] at h
    obtain ⟨taskItems, hti, h⟩ := h
    rw [exceptBind_ok] at h
    obtain ⟨msItems, -, h⟩ := h
    rw [exceptBind_ok] at h
    obtain ⟨termItems, -, h⟩ := h
    rw [exceptBind_ok] at h
    obtain ⟨mcItems, -, h⟩ := h
    rw [exceptBind_ok] at h
    obtain ⟨stepItems, -, h⟩ := h
    rw [exceptBind_ok] at h
    obtain ⟨tierItems, -, h⟩ := h
    rw [exceptBind_ok] at h
    obtain ⟨weekItems, -, h⟩ := h
    rw [exceptBind_ok] at h
    obtain ⟨dirItems, -, h⟩ := h
    rw [assembleDecomposition] at h
    rw [exceptBind_ok] at h
    obtain ⟨si, -, h⟩ := h
    rw [exceptBind_ok] at h
    obtain ⟨kd, -, h⟩ := h
    rw [exceptBind_ok] at h
    obtain ⟨cs, -, h⟩ := h
    rw [exceptBind_ok] at h
    obtain ⟨dt, -, h⟩ := h
    injection h with hplan
    rw [← hplan]
    simp only
    constructor
    · exact tasksOrFallback_len _ _
    · intro hbad
      have hnil := tasksFieldBad_collect_nil parseTaskItem
        parseTaskItem_str data taskItems hbad hti
      rw [hnil]
      constructor
      · rfl
      · unfold decompositionWarnings
        simp [List.mem_append]
  · intro data plan h
    rw [mapAgentResponse] at h
    rw [exceptBind_ok] at h
    obtain ⟨taskItems, hti, h⟩ := h
    rw [exceptBind_ok] at h
    obtain ⟨msItems, -, h⟩ := h
    rw [exceptBind_ok] at h
    obtain ⟨termItems, -, h⟩ := h
    rw [exceptBind_ok] at h
    obtain ⟨mcItems, -, h⟩ := h
    rw [exceptBind_ok] at h
    obtain ⟨stepItems, -, h⟩ := h
    rw [exceptBind_ok] at h
    obtain ⟨tierItems, -, h⟩ := h
    rw [exceptBind_ok] at h
    obtain ⟨weekItems, -, h⟩ := h
    rw [exceptBind_ok] at h
    obtain ⟨dirItems, -, h⟩ := h
    rw [assembleAgentResponse] at h
    rw [exceptBind_ok] at h
    obtain ⟨si, -, h⟩ := h
    rw [exceptBind_ok] at h
    obtain ⟨kd, -, h⟩ := h
    rw [exceptBind_ok] at h
    obtain ⟨cs, -, h⟩ := h
    rw [exceptBind_ok] at h
    obtain ⟨dt, -, h⟩ := h
    injection h with hplan
    rw [← hplan]
    simp only
    constructor
    · exact tasksOrFallback_len _ _
    · intro hbad
      have hnil := tasksFieldBad_collect_nil parseTaskItemAgent
        parseTaskItemAgent_str data taskItems hbad hti
      rw [hnil]
      constructor
      · rfl
      · unfold agentWarnings
        simp [List.mem_append]

/-- C2 counterexample: for the raw object `{"tasks": null}` — whose
`tasks` field is not a list — the mapper raises a `TypeError` instead of
returning a plan with the fallback task, contradicting the claim as
stated. -/
theorem claim_C2_counterexample :
    mapDecomposition [("tasks", Json.null)] = .error () := rfl

/-- The plan the mapper produces from the empty raw object. -/
def c2WitnessPlan : DecompositionResponse :=
  { tasks := [fallbackTask]
    extraction_warnings := ["tasks", "marking_criteria", "deadline",
      "key_deliverables", "prioritization_tiers", "get_started_steps",
      "milestones"] }

theorem claim_C2_mapper_fallback_witness :
    mapDecomposition [] = .ok c2WitnessPlan ∧ tasksFieldBad [] ∧
    1 ≤ c2WitnessPlan.tasks.length ∧
    c2WitnessPlan.tasks = [fallbackTask] ∧
    "tasks" ∈ c2WitnessPlan.extraction_warnings := by
  have h1 : mapDecomposition [] = .ok c2WitnessPlan := rfl
  have hbad : tasksFieldBad [] := Or.inl rfl
  have hmain := claim_C2_mapper_fallback.1 [] c2WitnessPlan h1
  exact ⟨h1, hbad, hmain.1, (hmain.2 hbad).1, (hmain.2 hbad).2⟩

/-! ### C8: fallback to the legacy decomposition path -/

/-- C8: when the generation-plus-parsing attempt of the analysis agent
raises (modelled `.error ()`), `execute` does not propagate the exception
on non-empty input: it returns exactly the result of the legacy
`decompose_coursework` applied to the untruncated `pdf_text` — the path
that uses the same `repair_json` decoding and schema-mapping logic. -/
theorem claim_C8_legacy_fallback (chainGen legacyGen : String → Except Unit String)
    (pdf_text : String) (hne : pdf_text ≠ "")
    (hfail : analysisAttempt chainGen pdf_text = .error ()) :
    analysis_execute chainGen legacyGen pdf_text =
      decompose_coursework legacyGen pdf_text := by
  unfold analysis_execute
  rw [if_neg hne, hfail]

theorem claim_C8_legacy_fallback_witness :
    ("spec" : String) ≠ "" ∧
    analysisAttempt (fun _ => .error ()) "spec" = .error () ∧
    analysis_execute (fun _ => .error ())
        (fun _ => .ok "\x7b\"tasks\": []\x7d") "spec" =
      decompose_coursework (fun _ => .ok "\x7b\"tasks\": []\x7d") "spec" :=
  ⟨by decide, rfl,
    claim_C8_legacy_fallback _ _ "spec" (by decide) rfl⟩

/-! ### C3 infrastructure: scan transparency on valid JSON

The scan of `repair_json` copies a valid JSON object verbatim: inside
strings valid JSON has no raw control characters (so no escaping
rewrites), outside strings the brackets balance (so the break fires
exactly at the root's closing brace).  `ScanThru u` states that scanning
`u` from a structural state with a nonempty ambient stack appends `u`
verbatim and returns to the same state. -/

def ScanThru (u : List Char) : Prop :=
  ∀ (t acc stack : List Char), stack ≠ [] →
    scanGo (u ++ t) acc stack false false =
      scanGo t (acc ++ u) stack false false

theorem scanThru_nil : ScanThru [] := by
  intro t acc stack _
  simp

theorem scanThru_append {a b : List Char} (ha : ScanThru a)
    (hb : ScanThru b) : ScanThru (a ++ b) := by
  intro t acc stack hst
  rw [List.append_assoc]
  rw [ha (b ++ t) acc stack hst]
  rw [hb t (acc ++ a) stack hst]
  rw [List.append_assoc]

/-- A structural character that is neither a quote nor a bracket scans
through. -/
theorem scanThru_plain_char {c : Char} (h1 : c ≠ '"') (h2 : c ≠ '{')
    (h3 : c ≠ '[') (h4 : c ≠ '}') (h5 : c ≠ ']') : ScanThru [c] := by
  intro t acc stack hst
  have hupd : stackUpd c stack = stack := stackUpd_plain c stack h2 h3 h4 h5
  rw [List.cons_append, List.nil_append]
  rw [scanGo_out_cont c t acc stack h1 (by rw [hupd]; exact fun hc => hst hc.1)]
  rw [hupd]

theorem isJsonWs_cases {c : Char} (h : isJsonWs c = true) :
    c = ' ' ∨ c = '\t' ∨ c = '\n' ∨ c = '\r' := by
  unfold isJsonWs at h
  simp only [Bool.or_eq_true, decide_eq_true_eq] at h
  tauto

theorem scanThru_ws {l : List Char} (h : ∀ c ∈ l, isJsonWs c = true) :
    ScanThru l := by
  induction l with
  | nil => exact scanThru_nil
  | cons c rest ih =>
    have hc := h c (List.mem_cons_self c rest)
    have hcr : ScanThru [c] := by
      rcases isJsonWs_cases hc with rfl | rfl | rfl | rfl <;>
        exact scanThru_plain_char (by decide) (by decide) (by decide)
          (by decide) (by decide)
    have := scanThru_append hcr (ih (fun x hx => h x (List.mem_cons_of_mem c hx)))
    simpa using this

theorem notCtrl_ne {c : Char} (h : ¬ c.toNat < 0x20) :
    c ≠ '\n' ∧ c ≠ '\r' ∧ c ≠ '\t' := by
  refine ⟨?_, ?_, ?_⟩ <;> (rintro rfl; exact h (by decide))

theorem isHexC_ne {c : Char} (h : isHexC c = true) :
    c ≠ '\\' ∧ c ≠ '"' ∧ c ≠ '\n' ∧ c ≠ '\r' ∧ c ≠ '\t' := by
  refine ⟨?_, ?_, ?_, ?_, ?_⟩ <;> (rintro rfl; revert h; decide)

/-! #### String literal lemmas -/

theorem psb_cons (c : Char) (rest : List Char) :
    parseStringBody (c :: rest) =
      (if c = '"' then some ([], rest)
       else if c = '\\' then
         (match rest with
          | [] => none
          | d :: rest2 =>
            if d = '"' ∨ d = '\\' ∨ d = '/' ∨ d = 'b' ∨ d = 'f' ∨
               d = 'n' ∨ d = 'r' ∨ d = 't' then
              (parseStringBody rest2).map (fun p => (c :: d :: p.1, p.2))
            else if d = 'u' then
              match rest2 with
              | h1 :: h2 :: h3 :: h4 :: rest3 =>
                if isHexC h1 && isHexC h2 && isHexC h3 && isHexC h4 then
                  (parseStringBody rest3).map
                    (fun p => (c :: d :: h1 :: h2 :: h3 :: h4 :: p.1, p.2))
                else none
              | _ => none
            else none)
       else if c.toNat < 0x20 then none
       else (parseStringBody rest).map (fun p => (c :: p.1, p.2))) := by
  rw [parseStringBody.eq_def]

theorem psb_quote (r : List Char) :
    parseStringBody ('"' :: r) = some ([], r) := by
  rw [psb_cons, if_pos rfl]

theorem psb_escape (d : Char) (r : List Char)
    (hd : d = '"' ∨ d = '\\' ∨ d = '/' ∨ d = 'b' ∨ d = 'f' ∨ d = 'n' ∨
      d = 'r' ∨ d = 't') :
    parseStringBody ('\\' :: d :: r) =
      (parseStringBody r).map (fun p => ('\\' :: d :: p.1, p.2)) := by
  rw [psb_cons, if_neg (by decide), if_pos rfl]
  dsimp only
  rw [if_pos hd]

theorem psb_unicode (a b c d : Char) (r : List Char)
    (hhex : (isHexC a && isHexC b && isHexC c && isHexC d) = true) :
    parseStringBody ('\\' :: 'u' :: a :: b :: c :: d :: r) =
      (parseStringBody r).map
        (fun p => ('\\' :: 'u' :: a :: b :: c :: d :: p.1, p.2)) := by
  rw [psb_cons, if_neg (by decide), if_pos rfl]
  dsimp only
  rw [if_neg (by decide), if_pos rfl, if_pos hhex]

theorem psb_plain (c : Char) (r : List Char) (hq : ¬c = '"')
    (hb : ¬c = '\\') (hctl : ¬c.toNat < 0x20) :
    parseStringBody (c :: r) =
      (parseStringBody r).map (fun p => (c :: p.1, p.2)) := by
  rw [psb_cons, if_neg hq, if_neg hb, if_neg hctl]

/-- Combined facts about one successfully lexed string body: the input
splits as lexeme + closing quote + rest, the lex result is independent of
what follows the closing quote, and the scan copies the lexeme and the
closing quote verbatim, leaving string mode. -/
theorem stringBody_main (cs : List Char) :
    ∀ lex rest, parseStringBody cs = some (lex, rest) →
      cs = lex ++ '"' :: rest ∧
      (∀ rest', parseStringBody (lex ++ '"' :: rest') = some (lex, rest')) ∧
      (∀ t acc stack, scanGo (lex ++ '"' :: t) acc stack true false =
        scanGo t (acc ++ (lex ++ ['"'])) stack false false) := by
  induction cs using parseStringBody.induct with
  | case1 => intro lex rest h; exact absurd h (by simp [parseStringBody])
  | case2 r2 =>
    intro lex rest h
    rw [psb_quote] at h
    injection h with h
    rw [Prod.mk.injEq] at h
    obtain ⟨h1, h2⟩ := h
    subst h1
    subst h2
    refine ⟨rfl, fun rest' => psb_quote rest', fun t acc stack => ?_⟩
    rw [List.nil_append, scanGo_quote]
    simp
  | case3 hbs =>
    intro lex rest h
    rw [psb_cons] at h
    rw [if_neg (by decide), if_pos rfl] at h
    exact absurd h (by simp)
  | case4 d rest2 hcond hq ih =>
    intro lex rest h
    rw [psb_escape d rest2 hcond] at h
    rcases hx : parseStringBody rest2 with - | ⟨u, r⟩ <;> rw [hx] at h
    · simp at h
    · simp only [Option.map_some', Option.some.injEq] at h
      rw [Prod.mk.injEq] at h
      obtain ⟨h1, h2⟩ := h
      subst h1
      subst h2
      obtain ⟨hsplit, htrunc, hscan⟩ := ih u r hx
      refine ⟨by rw [hsplit]; rfl, fun rest' => ?_, fun t acc stack => ?_⟩
      · rw [List.cons_append, List.cons_append,
          psb_escape d (u ++ '"' :: rest') hcond, htrunc rest']
        rfl
      · rw [List.cons_append, List.cons_append, scanGo_backslash, scanGo_esc]
        rw [hscan t]
        congr 1
        simp
  | case5 a b c d rest3 hhex hq hu ih =>
    intro lex rest h
    rw [psb_unicode a b c d rest3 hhex] at h
    rcases hx : parseStringBody rest3 with - | ⟨u, r⟩ <;> rw [hx] at h
    · simp at h
    · simp only [Option.map_some', Option.some.injEq] at h
      rw [Prod.mk.injEq] at h
      obtain ⟨h1, h2⟩ := h
      subst h1
      subst h2
      obtain ⟨hsplit, htrunc, hscan⟩ := ih u r hx
      obtain ⟨ha1, ha2⟩ := Bool.and_eq_true _ _ |>.mp hhex
      obtain ⟨hb1, hb2⟩ := Bool.and_eq_true _ _ |>.mp ha1
      obtain ⟨hc1, hc2⟩ := Bool.and_eq_true _ _ |>.mp hb1
      have hfa := isHexC_ne hc1
      have hfb := isHexC_ne hc2
      have hfc := isHexC_ne hb2
      have hfd := isHexC_ne ha2
      refine ⟨by rw [hsplit]; rfl, fun rest' => ?_, fun t acc stack => ?_⟩
      · simp only [List.cons_append]
        rw [psb_unicode a b c d (u ++ '"' :: rest') hhex, htrunc rest']
        rfl
      · simp only [List.cons_append]
        rw [scanGo_backslash, scanGo_esc]
        rw [scanGo_inStr_plain a _ _ _ hfa.1 hfa.2.1 hfa.2.2.1 hfa.2.2.2.1
          hfa.2.2.2.2]
        rw [scanGo_inStr_plain b _ _ _ hfb.1 hfb.2.1 hfb.2.2.1 hfb.2.2.2.1
          hfb.2.2.2.2]
        rw [scanGo_inStr_plain c _ _ _ hfc.1 hfc.2.1 hfc.2.2.1 hfc.2.2.2.1
          hfc.2.2.2.2]
        rw [scanGo_inStr_plain d _ _ _ hfd.1 hfd.2.1 hfd.2.2.1 hfd.2.2.2.1
          hfd.2.2.2.2]
        rw [hscan t]
        congr 1
        simp
  | case6 a b c d rest3 hhex hq hu =>
    intro lex rest h
    rw [psb_cons] at h
    rw [if_neg (by decide), if_pos rfl] at h
    simp only at h
    rw [if_neg hu] at h
    simp only [if_true] at h
    rw [if_neg hhex] at h
    exact absurd h (by simp)
  | case7 rest2 hshape hq hu =>
    intro lex rest h
    rw [psb_cons] at h
    rw [if_neg (by decide), if_pos rfl] at h
    simp only at h
    rw [if_neg hu] at h
    simp only [if_true] at h
    rcases rest2 with - | ⟨a, - | ⟨b, - | ⟨c, - | ⟨d, r⟩⟩⟩⟩
    · exact absurd h (by simp)
    · exact absurd h (by simp)
    · exact absurd h (by simp)
    · exact absurd h (by simp)
    · exact absurd rfl (hshape a b c d r)
  | case8 d rest2 hcond hdu hq =>
    intro lex rest h
    rw [psb_cons] at h
    rw [if_neg (by decide), if_pos rfl] at h
    simp only at h
    rw [if_neg hcond, if_neg hdu] at h
    exact absurd h (by simp)
  | case9 d rest2 hq hb hctl =>
    intro lex rest h
    rw [psb_cons, if_neg hq, if_neg hb, if_pos hctl] at h
    exact absurd h (by simp)
  | case10 d rest2 hq hb hctl ih =>
    intro lex rest h
    rw [psb_plain d rest2 hq hb hctl] at h
    rcases hx : parseStringBody rest2 with - | ⟨u, r⟩ <;> rw [hx] at h
    · simp at h
    · simp only [Option.map_some', Option.some.injEq] at h
      rw [Prod.mk.injEq] at h
      obtain ⟨h1, h2⟩ := h
      subst h1
      subst h2
      obtain ⟨hsplit, htrunc, hscan⟩ := ih u r hx
      have hne := notCtrl_ne hctl
      refine ⟨by rw [hsplit]; rfl, fun rest' => ?_, fun t acc stack => ?_⟩
      · rw [List.cons_append, psb_plain d (u ++ '"' :: rest') hq hb hctl,
          htrunc rest']
        rfl
      · rw [List.cons_append]
        rw [scanGo_inStr_plain d _ _ _ hb hq hne.1 hne.2.1 hne.2.2]
        rw [hscan t]
        congr 1
        simp

/-! #### Number lexeme lemmas -/

/-- Any list free of quotes and brackets scans through. -/
theorem scanThru_all_plain (l : List Char)
    (h : ∀ c ∈ l, ¬(c = '"' ∨ c = '{' ∨ c = '[' ∨ c = '}' ∨ c = ']')) :
    ScanThru l := by
  induction l with
  | nil => exact scanThru_nil
  | cons c rest ih =>
    have hc := h c (List.mem_cons_self c rest)
    push_neg at hc
    have h1 : ScanThru [c] :=
      scanThru_plain_char hc.1 hc.2.1 hc.2.2.1 hc.2.2.2.1 hc.2.2.2.2
    have := scanThru_append h1
      (ih (fun x hx => h x (List.mem_cons_of_mem c hx)))
    simpa using this

/-- What may legally follow a complete value inside a JSON text:
whitespace, a comma, a colon, or a closing bracket (or nothing). -/
def SafeHead (r : List Char) : Prop :=
  r = [] ∨ ∃ c t, r = c :: t ∧
    (isJsonWs c = true ∨ c = ',' ∨ c = ':' ∨ c = '}' ∨ c = ']')

theorem safeHead_facts (r : List Char) (h : SafeHead r) :
    r = [] ∨ ∃ c t, r = c :: t ∧ isDigitC c = false ∧ c ≠ '.' ∧
      c ≠ 'e' ∧ c ≠ 'E' ∧ c ≠ '+' ∧ c ≠ '-' := by
  rcases h with rfl | ⟨c, t, rfl, hc⟩
  · exact Or.inl rfl
  · refine Or.inr ⟨c, t, rfl, ?_⟩
    rcases hc with hws | rfl | rfl | rfl | rfl
    · rcases isJsonWs_cases hws with rfl | rfl | rfl | rfl <;> exact (by decide)
    all_goals exact (by decide)

theorem isDigitC_notStruct {c : Char} (h : isDigitC c = true) :
    ¬(c = '"' ∨ c = '{' ∨ c = '[' ∨ c = '}' ∨ c = ']') := by
  rintro (rfl | rfl | rfl | rfl | rfl) <;> revert h <;> decide

/-- The number-lexeme character class. -/
def numChar (c : Char) : Prop :=
  isDigitC c = true ∨ c = '-' ∨ c = '+' ∨ c = '.' ∨ c = 'e' ∨ c = 'E'

theorem numChar_notStruct {c : Char} (h : numChar c) :
    ¬(c = '"' ∨ c = '{' ∨ c = '[' ∨ c = '}' ∨ c = ']') := by
  rcases h with hd | rfl | rfl | rfl | rfl | rfl
  · exact isDigitC_notStruct hd
  all_goals decide

theorem takeWhile_digits_append (ds X : List Char)
    (hds : ∀ x ∈ ds, isDigitC x = true)
    (hX : X = [] ∨ ∃ c t, X = c :: t ∧ isDigitC c = false) :
    (ds ++ X).takeWhile isDigitC = ds ∧
    (ds ++ X).dropWhile isDigitC = X := by
  induction ds with
  | nil =>
    rcases hX with rfl | ⟨c, t, rfl, hc⟩
    · simp
    · simp [List.takeWhile_cons, List.dropWhile_cons, hc]
  | cons d rest ih =>
    have hd := hds d (List.mem_cons_self d rest)
    obtain ⟨ih1, ih2⟩ := ih (fun x hx => hds x (List.mem_cons_of_mem d hx))
    constructor
    · rw [List.cons_append, List.takeWhile_cons, if_pos hd, ih1]
    · rw [List.cons_append, List.dropWhile_cons, if_pos hd, ih2]

/-- Group structure of a successfully lexed JSON number. -/
def NumGroups (sign ip fp ep : List Char) : Prop :=
  (sign = [] ∨ sign = ['-']) ∧
  (ip = ['0'] ∨ (∃ c ds, ip = c :: ds ∧ isDigitC c = true ∧ c ≠ '0' ∧
    (∀ x ∈ ds, isDigitC x = true))) ∧
  (fp = [] ∨ (∃ ds, fp = '.' :: ds ∧ ds ≠ [] ∧
    (∀ x ∈ ds, isDigitC x = true))) ∧
  (ep = [] ∨ (∃ e sg ds, ep = e :: (sg ++ ds) ∧ (e = 'e' ∨ e = 'E') ∧
    (sg = [] ∨ sg = ['+'] ∨ sg = ['-']) ∧ ds ≠ [] ∧
    (∀ x ∈ ds, isDigitC x = true)))

theorem numGroups_chars {sign ip fp ep : List Char}
    (hg : NumGroups sign ip fp ep) :
    ∀ c ∈ sign ++ ip ++ fp ++ ep, numChar c := by
  obtain ⟨hs, hi, hf, he⟩ := hg
  intro c hc
  simp only [List.append_assoc, List.mem_append] at hc
  rcases hc with hc | hc | hc | hc
  · rcases hs with rfl | rfl
    · simp at hc
    · simp at hc; subst hc; right; left; rfl
  · rcases hi with rfl | ⟨a, ds, rfl, ha, -, hds⟩
    · simp at hc; subst hc; left; decide
    · rcases List.mem_cons.mp hc with rfl | hc
      · exact Or.inl ha
      · exact Or.inl (hds c hc)
  · rcases hf with rfl | ⟨ds, rfl, -, hds⟩
    · simp at hc
    · rcases List.mem_cons.mp hc with rfl | hc
      · right; right; right; left; rfl
      · exact Or.inl (hds c hc)
  · rcases he with rfl | ⟨e, sg, ds, rfl, hee, hsg, -, hds⟩
    · simp at hc
    · rcases List.mem_cons.mp hc with rfl | hc
      · rcases hee with rfl | rfl
        · right; right; right; right; left; rfl
        · right; right; right; right; right; rfl
      · rcases List.mem_append.mp hc with hc | hc
        · rcases hsg with rfl | rfl | rfl
          · simp at hc
          · simp at hc; subst hc; right; right; left; rfl
          · simp at hc; subst hc; right; left; rfl
        · exact Or.inl (hds c hc)

theorem lexSign_cons (c : Char) (r : List Char) :
    lexSign (c :: r) = if c = '-' then (['-'], r) else ([], c :: r) := rfl

theorem lexSign_split (cs : List Char) :
    cs = (lexSign cs).1 ++ (lexSign cs).2 ∧
    ((lexSign cs).1 = [] ∨ (lexSign cs).1 = ['-']) := by
  match cs with
  | [] => exact ⟨rfl, Or.inl rfl⟩
  | c :: r =>
    rw [lexSign_cons]
    by_cases hc : c = '-'
    · subst hc
      rw [if_pos rfl]
      exact ⟨rfl, Or.inr rfl⟩
    · rw [if_neg hc]
      exact ⟨rfl, Or.inl rfl⟩

theorem lexSign_of_ne (c : Char) (r : List Char) (h : c ≠ '-') :
    lexSign (c :: r) = ([], c :: r) := by
  rw [lexSign_cons, if_neg h]

theorem mem_takeWhile_digit (l : List Char) :
    ∀ x ∈ l.takeWhile isDigitC, isDigitC x = true := by
  induction l with
  | nil => simp
  | cons c r ih =>
    rw [List.takeWhile_cons]
    split
    · rename_i hc
      intro x hx
      rcases List.mem_cons.mp hx with rfl | hx
      · exact hc
      · exact ih x hx
    · simp

theorem lexInt_cons (c : Char) (r : List Char) :
    lexInt (c :: r) =
      (if c = '0' then some (['0'], r)
       else if isDigitC c then
         some (c :: r.takeWhile isDigitC, r.dropWhile isDigitC)
       else none) := rfl

theorem lexInt_split (cs ip rest0 : List Char)
    (h : lexInt cs = some (ip, rest0)) :
    cs = ip ++ rest0 ∧
    (ip = ['0'] ∨ (∃ c ds, ip = c :: ds ∧ isDigitC c = true ∧ c ≠ '0' ∧
      (∀ x ∈ ds, isDigitC x = true))) := by
  match cs with
  | [] => exact absurd h (by simp [lexInt])
  | c :: r =>
    rw [lexInt_cons] at h
    by_cases hc : c = '0'
    · subst hc
      rw [if_pos rfl] at h
      injection h with h
      rw [Prod.mk.injEq] at h
      obtain ⟨h1, h2⟩ := h
      subst h1
      subst h2
      exact ⟨rfl, Or.inl rfl⟩
    · rw [if_neg hc] at h
      by_cases hd : isDigitC c
      · rw [if_pos hd] at h
        injection h with h
        rw [Prod.mk.injEq] at h
        obtain ⟨h1, h2⟩ := h
        subst h1
        subst h2
        refine ⟨by rw [List.cons_append, List.takeWhile_append_dropWhile],
          Or.inr ⟨c, r.takeWhile isDigitC, rfl, hd, hc,
            mem_takeWhile_digit r⟩⟩
      · rw [if_neg hd] at h
        exact absurd h (by simp)

theorem lexFrac_cons (c : Char) (r : List Char) :
    lexFrac (c :: r) =
      (if c = '.' then
        if r.takeWhile isDigitC = [] then ([], c :: r)
        else ('.' :: r.takeWhile isDigitC, r.dropWhile isDigitC)
       else ([], c :: r)) := rfl

theorem lexFrac_split (cs : List Char) :
    cs = (lexFrac cs).1 ++ (lexFrac cs).2 ∧
    ((lexFrac cs).1 = [] ∨ (∃ ds, (lexFrac cs).1 = '.' :: ds ∧ ds ≠ [] ∧
      (∀ x ∈ ds, isDigitC x = true))) := by
  match cs with
  | [] => exact ⟨rfl, Or.inl rfl⟩
  | c :: r =>
    rw [lexFrac_cons]
    by_cases hc : c = '.'
    · subst hc
      rw [if_pos rfl]
      by_cases hds : r.takeWhile isDigitC = []
      · rw [if_pos hds]
        exact ⟨rfl, Or.inl rfl⟩
      · rw [if_neg hds]
        refine ⟨?_, Or.inr ⟨r.takeWhile isDigitC, rfl, hds,
          mem_takeWhile_digit r⟩⟩
        simp only
        rw [List.cons_append, List.takeWhile_append_dropWhile]
    · rw [if_neg hc]
      exact ⟨rfl, Or.inl rfl⟩

theorem lexExpSign_cons (c : Char) (r : List Char) :
    lexExpSign (c :: r) =
      (if c = '+' then (['+'], r)
       else if c = '-' then (['-'], r)
       else ([], c :: r)) := rfl

theorem lexExpSign_split (cs : List Char) :
    cs = (lexExpSign cs).1 ++ (lexExpSign cs).2 ∧
    ((lexExpSign cs).1 = [] ∨ (lexExpSign cs).1 = ['+'] ∨
      (lexExpSign cs).1 = ['-']) := by
  match cs with
  | [] => exact ⟨rfl, Or.inl rfl⟩
  | c :: r =>
    rw [lexExpSign_cons]
    by_cases h1 : c = '+'
    · subst h1
      rw [if_pos rfl]
      exact ⟨rfl, Or.inr (Or.inl rfl)⟩
    · rw [if_neg h1]
      by_cases h2 : c = '-'
      · subst h2
        rw [if_pos rfl]
        exact ⟨rfl, Or.inr (Or.inr rfl)⟩
      · rw [if_neg h2]
        exact ⟨rfl, Or.inl rfl⟩

theorem lexExp_cons (c : Char) (r : List Char) :
    lexExp (c :: r) =
      (if c = 'e' ∨ c = 'E' then
        if (lexExpSign r).2.takeWhile isDigitC = [] then ([], c :: r)
        else (c :: (lexExpSign r).1 ++ (lexExpSign r).2.takeWhile isDigitC,
          (lexExpSign r).2.dropWhile isDigitC)
       else ([], c :: r)) := rfl

theorem lexExp_split (cs : List Char) :
    cs = (lexExp cs).1 ++ (lexExp cs).2 ∧
    ((lexExp cs).1 = [] ∨ (∃ e sg ds, (lexExp cs).1 = e :: (sg ++ ds) ∧
      (e = 'e' ∨ e = 'E') ∧ (sg = [] ∨ sg = ['+'] ∨ sg = ['-']) ∧
      ds ≠ [] ∧ (∀ x ∈ ds, isDigitC x = true))) := by
  match cs with
  | [] => exact ⟨rfl, Or.inl rfl⟩
  | c :: r =>
    rw [lexExp_cons]
    by_cases hc : c = 'e' ∨ c = 'E'
    · rw [if_pos hc]
      by_cases hds : (lexExpSign r).2.takeWhile isDigitC = []
      · rw [if_pos hds]
        exact ⟨rfl, Or.inl rfl⟩
      · rw [if_neg hds]
        obtain ⟨hr, hsgf⟩ := lexExpSign_split r
        refine ⟨?_, Or.inr ⟨c, (lexExpSign r).1,
          (lexExpSign r).2.takeWhile isDigitC, by simp, hc, hsgf,
          hds, mem_takeWhile_digit _⟩⟩
        simp only
        rw [List.cons_append, List.cons_append, List.append_assoc,
          List.takeWhile_append_dropWhile, ← hr]
    · rw [if_neg hc]
      exact ⟨rfl, Or.inl rfl⟩

/-- Decomposing a successful number lex into its regex groups. -/
theorem parseNumber_decompose (cs lex rest : List Char)
    (h : parseNumber cs = some (lex, rest)) :
    ∃ sign ip fp ep, lex = sign ++ ip ++ fp ++ ep ∧ cs = lex ++ rest ∧
      NumGroups sign ip fp ep := by
  unfold parseNumber at h
  rcases hI : lexInt (lexSign cs).2 with - | ⟨ip, rest0⟩ <;> rw [hI] at h
  · exact absurd h (by simp)
  · simp only [Option.some.injEq, Prod.mk.injEq] at h
    obtain ⟨h1, h2⟩ := h
    obtain ⟨hs1, hs2⟩ := lexSign_split cs
    obtain ⟨hi1, hi2⟩ := lexInt_split _ ip rest0 hI
    obtain ⟨hf1, hf2⟩ := lexFrac_split rest0
    obtain ⟨he1, he2⟩ := lexExp_split (lexFrac rest0).2
    refine ⟨(lexSign cs).1, ip, (lexFrac rest0).1, (lexExp (lexFrac rest0).2).1,
      h1.symm, ?_, hs2, hi2, hf2, he2⟩
    rw [← h1, ← h2]
    conv_lhs => rw [hs1, hi1, hf1, he1]
    simp [List.append_assoc]

theorem isDigitC_false_ne {c d : Char} (h : isDigitC c = true)
    (hd : isDigitC d = false) : c ≠ d := by
  intro h1
  subst h1
  rw [h] at hd
  exact Bool.noConfusion hd

/-- Reassembling the regex groups before a safe stop character lexes back
to exactly the same number lexeme. -/
theorem parseNumber_assemble (sign ip fp ep rest' : List Char)
    (hg : NumGroups sign ip fp ep) (hr : SafeHead rest') :
    parseNumber (sign ++ (ip ++ (fp ++ (ep ++ rest')))) =
      some (sign ++ ip ++ fp ++ ep, rest') := by
  obtain ⟨hs, hi, hf, he⟩ := hg
  have hrf := safeHead_facts rest' hr
  have hrd : rest' = [] ∨ ∃ c t, rest' = c :: t ∧ isDigitC c = false := by
    rcases hrf with h0 | ⟨c, t, heq, hcd, -, -, -, -, -⟩
    · exact Or.inl h0
    · exact Or.inr ⟨c, t, heq, hcd⟩
  have hipHead : ∃ c t, ip = c :: t ∧ isDigitC c = true := by
    rcases hi with rfl | ⟨c, ds, rfl, hc, -, -⟩
    · exact ⟨'0', [], rfl, by decide⟩
    · exact ⟨c, ds, rfl, hc⟩
  have hepRest : ep ++ rest' = [] ∨
      ∃ c t, ep ++ rest' = c :: t ∧ isDigitC c = false ∧ c ≠ '.' := by
    rcases he with rfl | ⟨e, sg, ds, rfl, hee, -, -, -⟩
    · rcases hrf with h0 | ⟨c, t, heq, hcd, hdot, -, -, -, -⟩
      · exact Or.inl (by simp [h0])
      · exact Or.inr ⟨c, t, by simp [heq], hcd, hdot⟩
    · refine Or.inr ⟨e, (sg ++ ds) ++ rest', by simp, ?_⟩
      rcases hee with rfl | rfl <;> exact ⟨by decide, by decide⟩
  have hepRestD : ep ++ rest' = [] ∨
      ∃ c t, ep ++ rest' = c :: t ∧ isDigitC c = false := by
    rcases hepRest with h0 | ⟨c, t, heq, hcd, -⟩
    · exact Or.inl h0
    · exact Or.inr ⟨c, t, heq, hcd⟩
  have hfpRest : fp ++ (ep ++ rest') = [] ∨
      ∃ c t, fp ++ (ep ++ rest') = c :: t ∧ isDigitC c = false := by
    rcases hf with rfl | ⟨ds, rfl, -, -⟩
    · simpa using hepRestD
    · exact Or.inr ⟨'.', ds ++ (ep ++ rest'), by simp, by decide⟩
  have hA : lexSign (sign ++ (ip ++ (fp ++ (ep ++ rest')))) =
      (sign, ip ++ (fp ++ (ep ++ rest'))) := by
    obtain ⟨c, t, hip, hcd⟩ := hipHead
    rcases hs with rfl | rfl
    · have hne : c ≠ '-' := isDigitC_false_ne hcd (by decide)
      rw [List.nil_append, hip, List.cons_append]
      exact lexSign_of_ne c _ hne
    · rw [List.singleton_append, lexSign_cons, if_pos rfl]
  have hB : lexInt (ip ++ (fp ++ (ep ++ rest'))) =
      some (ip, fp ++ (ep ++ rest')) := by
    rcases hi with rfl | ⟨c, ds, rfl, hcd, hc0, hds⟩
    · rw [List.singleton_append, lexInt_cons, if_pos rfl]
    · obtain ⟨ht, hd⟩ := takeWhile_digits_append ds _ hds hfpRest
      rw [List.cons_append, lexInt_cons, if_neg hc0, if_pos hcd, ht, hd]
  have hC : lexFrac (fp ++ (ep ++ rest')) = (fp, ep ++ rest') := by
    rcases hf with rfl | ⟨ds, rfl, hdsne, hds⟩
    · rw [List.nil_append]
      rcases hepRest with h0 | ⟨c, t, heq, -, hdot⟩
      · rw [h0]; rfl
      · rw [heq, lexFrac_cons, if_neg hdot]
    · obtain ⟨ht, hd⟩ := takeWhile_digits_append ds _ hds hepRestD
      rw [List.cons_append, lexFrac_cons, if_pos rfl, ht, hd, if_neg hdsne]
  have hD : lexExp (ep ++ rest') = (ep, rest') := by
    rcases he with rfl | ⟨e, sg, ds, rfl, hee, hsg, hdsne, hds⟩
    · rw [List.nil_append]
      rcases hrf with h0 | ⟨c, t, heq, -, -, hce, hcE, -, -⟩
      · rw [h0]; rfl
      · rw [heq, lexExp_cons,
          if_neg (by rintro (rfl | rfl); exacts [hce rfl, hcE rfl])]
    · have hSG : lexExpSign (sg ++ (ds ++ rest')) = (sg, ds ++ rest') := by
        rcases hsg with rfl | rfl | rfl
        · match ds, hdsne with
          | d :: dt, _ =>
            have hd := hds d (List.mem_cons_self d dt)
            have h1 : d ≠ '+' := isDigitC_false_ne hd (by decide)
            have h2 : d ≠ '-' := isDigitC_false_ne hd (by decide)
            rw [List.nil_append, List.cons_append, lexExpSign_cons,
              if_neg h1, if_neg h2]
        · rw [List.singleton_append, lexExpSign_cons, if_pos rfl]
        · rw [List.singleton_append, lexExpSign_cons, if_neg (by decide),
            if_pos rfl]
      obtain ⟨ht, hd⟩ := takeWhile_digits_append ds rest' hds hrd
      rw [List.cons_append, List.append_assoc, lexExp_cons, if_pos hee,
        hSG]
      simp only
      rw [ht, hd, if_neg hdsne, List.cons_append]
  unfold parseNumber
  rw [hA]
  simp only
  rw [hB]
  simp only
  rw [hC]
  simp only
  rw [hD]

/-! #### Whitespace and prefix plumbing -/

theorem takeWhile_all (p : Char → Bool) (l : List Char) :
    ∀ x ∈ l.takeWhile p, p x = true := by
  induction l with
  | nil => simp
  | cons c r ih =>
    rw [List.takeWhile_cons]
    split
    · rename_i hc
      intro x hx
      rcases List.mem_cons.mp hx with rfl | hx
      · exact hc
      · exact ih x hx
    · simp

theorem dropWhile_all_append (p : Char → Bool) (w X : List Char)
    (h : ∀ c ∈ w, p c = true) :
    (w ++ X).dropWhile p = X.dropWhile p := by
  induction w with
  | nil => rfl
  | cons c r ih =>
    rw [List.cons_append, List.dropWhile_cons,
      if_pos (h c (List.mem_cons_self c r))]
    exact ih (fun x hx => h x (List.mem_cons_of_mem c hx))

theorem skipWs_ws_append (w X : List Char)
    (h : ∀ c ∈ w, isJsonWs c = true) : skipWs (w ++ X) = skipWs X :=
  dropWhile_all_append isJsonWs w X h

theorem skipWs_cons_not (c : Char) (X : List Char)
    (h : isJsonWs c = false) : skipWs (c :: X) = c :: X := by
  unfold skipWs
  rw [List.dropWhile_cons, if_neg (by rw [h]; exact Bool.noConfusion)]

theorem skipWs_split (l : List Char) :
    l = l.takeWhile isJsonWs ++ skipWs l ∧
    ∀ c ∈ l.takeWhile isJsonWs, isJsonWs c = true :=
  ⟨(List.takeWhile_append_dropWhile isJsonWs l).symm,
    takeWhile_all isJsonWs l⟩

theorem skipWs_nil_all (l : List Char) (h : skipWs l = []) :
    ∀ c ∈ l, isJsonWs c = true := by
  induction l with
  | nil => simp
  | cons c r ih =>
    unfold skipWs at h
    rw [List.dropWhile_cons] at h
    split at h
    · rename_i hc
      intro x hx
      rcases List.mem_cons.mp hx with rfl | hx
      · exact hc
      · exact ih h x hx
    · exact absurd h (by simp)

theorem startsWithSeq_append_self (pat X : List Char) :
    startsWithSeq pat (pat ++ X) = true := by
  unfold startsWithSeq
  rw [List.take_left]
  simp

theorem startsWithSeq_split (pat cs : List Char)
    (h : startsWithSeq pat cs = true) :
    cs = pat ++ cs.drop pat.length := by
  unfold startsWithSeq at h
  rw [decide_eq_true_eq] at h
  conv_lhs => rw [← List.take_append_drop pat.length cs]
  rw [h]

theorem startsWithSeq_head_ne (p c : Char) (ps cs : List Char)
    (h : c ≠ p) : startsWithSeq (p :: ps) (c :: cs) = false := by
  unfold startsWithSeq
  rw [List.length_cons, List.take_succ_cons]
  simp [h]

theorem startsWithSeq_second_ne (p0 p1 c0 c1 : Char) (ps cs : List Char)
    (h : c1 ≠ p1) :
    startsWithSeq (p0 :: p1 :: ps) (c0 :: c1 :: cs) = false := by
  unfold startsWithSeq
  rw [List.length_cons, List.length_cons, List.take_succ_cons,
    List.take_succ_cons]
  simp [h]

theorem isJsonWs_isPySpace {c : Char} (h : isJsonWs c = true) :
    isPySpace c = true := by
  rcases isJsonWs_cases h with rfl | rfl | rfl | rfl <;> decide

/-! #### Composite scan-transparency lemmas -/

theorem scanThru_string (lex : List Char)
    (hscan : ∀ t acc stack, scanGo (lex ++ '"' :: t) acc stack true false =
      scanGo t (acc ++ (lex ++ ['"'])) stack false false) :
    ScanThru (('"' :: lex) ++ ['"']) := by
  intro t acc stack hst
  have hshape : (('"' :: lex) ++ ['"']) ++ t = '"' :: (lex ++ '"' :: t) := by
    simp
  rw [hshape, scanGo_quote, Bool.not_false, hscan t (acc ++ ['"']) stack]
  congr 1
  simp

theorem scanThru_braces {mid : List Char} (hmid : ScanThru mid) :
    ScanThru (('{' :: mid) ++ ['}']) := by
  intro t acc stack hst
  have hshape : (('{' :: mid) ++ ['}']) ++ t = '{' :: (mid ++ '}' :: t) := by
    simp
  rw [hshape, scanGo_open_brace]
  rw [hmid ('}' :: t) (acc ++ ['{']) ('{' :: stack) (by simp)]
  rw [scanGo_out_cont '}' t _ _ (by decide)
    (by rw [stackUpd_close_brace]; exact fun hc => hst hc.1)]
  rw [stackUpd_close_brace]
  congr 1
  simp

theorem scanThru_bracketsE {mid : List Char} (hmid : ScanThru mid) :
    ScanThru (('[' :: mid) ++ [']']) := by
  intro t acc stack hst
  have hshape : (('[' :: mid) ++ [']']) ++ t = '[' :: (mid ++ ']' :: t) := by
    simp
  rw [hshape, scanGo_open_bracket]
  rw [hmid (']' :: t) (acc ++ ['[']) ('[' :: stack) (by simp)]
  rw [scanGo_out_cont ']' t _ _ (by decide)
    (by rw [stackUpd_close_bracket]; exact fun hc => hst hc.1)]
  rw [stackUpd_close_bracket]
  congr 1
  simp

/-- Scanning a balanced root object from the initial state copies it
verbatim, ignoring anything after the closing brace, and ends with an
empty stack outside a string. -/
theorem scan_root {mid : List Char} (hmid : ScanThru mid) (t : List Char) :
    scanGo ((('{' :: mid) ++ ['}']) ++ t) [] [] false false =
      (('{' :: mid) ++ ['}'], [], false) := by
  have hshape : (('{' :: mid) ++ ['}']) ++ t = '{' :: (mid ++ '}' :: t) := by
    simp
  rw [hshape, scanGo_open_brace]
  rw [hmid ('}' :: t) ([] ++ ['{']) ['{'] (by simp)]
  rw [scanGo_out_break '}' t _ _ (by decide)
    ⟨stackUpd_close_brace [], by simp⟩]
  rw [stackUpd_close_brace]
  simp

theorem ne_true_of_false {b : Bool} (h : b = false) : ¬b = true := by
  rw [h]
  exact Bool.noConfusion

theorem isDigitC_not_ws {c : Char} (h : isDigitC c = true) :
    isJsonWs c = false := by
  cases hws : isJsonWs c
  · rfl
  · rcases isJsonWs_cases hws with rfl | rfl | rfl | rfl <;>
      exact absurd h (by decide)

theorem safeHead_ws_delim (w : List Char) (hw : ∀ c ∈ w, isJsonWs c = true)
    (d : Char) (hd : d = ',' ∨ d = ':' ∨ d = '}' ∨ d = ']') (X : List Char) :
    SafeHead (w ++ d :: X) := by
  cases w with
  | nil =>
    refine Or.inr ⟨d, X, rfl, ?_⟩
    rcases hd with rfl | rfl | rfl | rfl <;> simp
  | cons c w2 =>
    exact Or.inr ⟨c, w2 ++ d :: X, rfl,
      Or.inl (hw c (List.mem_cons_self c w2))⟩

theorem scanThru_colon : ScanThru [':'] :=
  scanThru_plain_char (by decide) (by decide) (by decide) (by decide)
    (by decide)

theorem scanThru_comma : ScanThru [','] :=
  scanThru_plain_char (by decide) (by decide) (by decide) (by decide)
    (by decide)

/-! #### The parser's structural exports

One statement per parse function, proved together by induction on the
fuel: a successful parse consumes a prefix `u` of the input that is
scan-transparent, starts with a non-space character, and can be re-parsed
before any safe tail with any sufficient fuel. -/

def ValOut (n : Nat) : Prop :=
  ∀ cs v rest, parseVal n cs = some (v, rest) →
    ∃ u, cs = u ++ rest ∧ ScanThru u ∧
      (∃ c u2, u = c :: u2 ∧ isJsonWs c = false ∧ c ≠ ']') ∧
      (∀ fs, v = Json.obj fs →
        ∃ mid, u = ('{' :: mid) ++ ['}'] ∧ ScanThru mid) ∧
      (∀ rest' m, SafeHead rest' → 2 * u.length + 2 ≤ m →
        parseVal m (u ++ rest') = some (v, rest'))

def MembersOut (n : Nat) : Prop :=
  ∀ first cs fs rest, parseMembers n first cs = some (fs, rest) →
    ∃ u, cs = u ++ '}' :: rest ∧ ScanThru u ∧
      (∀ X, skipWs (u ++ '}' :: X) = u ++ '}' :: X) ∧
      (∀ rest' m, 2 * u.length + 3 ≤ m →
        parseMembers m first (u ++ '}' :: rest') = some (fs, rest'))

def ElemsOut (n : Nat) : Prop :=
  ∀ first cs xs rest, parseElems n first cs = some (xs, rest) →
    ∃ u, cs = u ++ ']' :: rest ∧ ScanThru u ∧
      (∀ X, skipWs (u ++ ']' :: X) = u ++ ']' :: X) ∧
      (∀ rest' m, 2 * u.length + 3 ≤ m →
        parseElems m first (u ++ ']' :: rest') = some (xs, rest'))

theorem valOut_succ (n : Nat) (ihm : MembersOut n) (ihe : ElemsOut n) :
    ValOut (Nat.succ n) := by
  intro cs v rest h
  match cs with
  | [] =>
    rw [parseVal] at h
    exact absurd h (by simp)
  | c :: restO =>
    rw [parseVal] at h
    by_cases hbrace : c = '{'
    · subst hbrace
      rw [if_pos rfl] at h
      split at h
      · rename_i fs r heqM
        injection h with h
        rw [Prod.mk.injEq] at h
        obtain ⟨hv, hr⟩ := h
        subst hv
        subst hr
        obtain ⟨um, hmeq, hmScan, hmSkip, hmRerun⟩ :=
          ihm true (skipWs restO) fs r heqM
        obtain ⟨w0, hr0, hw0⟩ :
            ∃ w0, restO = w0 ++ (um ++ '}' :: r) ∧
              ∀ x ∈ w0, isJsonWs x = true :=
          ⟨restO.takeWhile isJsonWs,
            by conv_lhs => rw [(skipWs_split restO).1, hmeq],
            (skipWs_split restO).2⟩
        refine ⟨('{' :: (w0 ++ um)) ++ ['}'], ?_, ?_, ?_, ?_, ?_⟩
        · rw [hr0]
          simp
        · exact scanThru_braces (scanThru_append (scanThru_ws hw0) hmScan)
        · exact ⟨'{', (w0 ++ um) ++ ['}'], rfl, by decide, by decide⟩
        · exact fun fs' _ =>
            ⟨w0 ++ um, rfl, scanThru_append (scanThru_ws hw0) hmScan⟩
        · intro rest' m hsafe hm
          obtain ⟨m', rfl⟩ : ∃ m', m = m' + 1 := ⟨m - 1, by omega⟩
          have hsh : (('{' :: (w0 ++ um)) ++ ['}']) ++ rest' =
              '{' :: (w0 ++ (um ++ '}' :: rest')) := by simp
          rw [hsh, parseVal, if_pos rfl, skipWs_ws_append w0 _ hw0,
            hmSkip rest']
          have hlen : (('{' :: (w0 ++ um)) ++ ['}']).length =
              w0.length + um.length + 2 := by simp; omega
          rw [hmRerun rest' m' (by omega)]
      · exact absurd h (by simp)
    · rw [if_neg hbrace] at h
      by_cases hbrack : c = '['
      · subst hbrack
        rw [if_pos rfl] at h
        split at h
        · rename_i xs r heqE
          injection h with h
          rw [Prod.mk.injEq] at h
          obtain ⟨hv, hr⟩ := h
          subst hv
          subst hr
          obtain ⟨ue, heeq, heScan, heSkip, heRerun⟩ :=
            ihe true (skipWs restO) xs r heqE
          obtain ⟨w0, hr0, hw0⟩ :
              ∃ w0, restO = w0 ++ (ue ++ ']' :: r) ∧
                ∀ x ∈ w0, isJsonWs x = true :=
            ⟨restO.takeWhile isJsonWs,
              by conv_lhs => rw [(skipWs_split restO).1, heeq],
              (skipWs_split restO).2⟩
          refine ⟨('[' :: (w0 ++ ue)) ++ [']'], ?_, ?_, ?_, ?_, ?_⟩
          · rw [hr0]
            simp
          · exact scanThru_bracketsE (scanThru_append (scanThru_ws hw0) heScan)
          · exact ⟨'[', (w0 ++ ue) ++ [']'], rfl, by decide, by decide⟩
          · intro fs' hv
            exact absurd hv (by simp)
          · intro rest' m hsafe hm
            obtain ⟨m', rfl⟩ : ∃ m', m = m' + 1 := ⟨m - 1, by omega⟩
            have hsh : (('[' :: (w0 ++ ue)) ++ [']']) ++ rest' =
                '[' :: (w0 ++ (ue ++ ']' :: rest')) := by simp
            rw [hsh, parseVal, if_neg (by decide), if_pos rfl,
              skipWs_ws_append w0 _ hw0, heSkip rest']
            have hlen : (('[' :: (w0 ++ ue)) ++ [']']).length =
                w0.length + ue.length + 2 := by simp; omega
            rw [heRerun rest' m' (by omega)]
        · exact absurd h (by simp)
      · rw [if_neg hbrack] at h
        by_cases hquote : c = '"'
        · subst hquote
          rw [if_pos rfl] at h
          split at h
          · rename_i lex r heqS
            injection h with h
            rw [Prod.mk.injEq] at h
            obtain ⟨hv, hr⟩ := h
            subst hv
            subst hr
            obtain ⟨hSsplit, hSrelex, hSscan⟩ :=
              stringBody_main restO lex r heqS
            refine ⟨('"' :: lex) ++ ['"'], ?_, ?_, ?_, ?_, ?_⟩
            · rw [hSsplit]
              simp
            · exact scanThru_string lex hSscan
            · exact ⟨'"', lex ++ ['"'], rfl, by decide, by decide⟩
            · intro fs' hv
              exact absurd hv (by simp)
            · intro rest' m hsafe hm
              obtain ⟨m', rfl⟩ : ∃ m', m = m' + 1 := ⟨m - 1, by omega⟩
              have hsh : (('"' :: lex) ++ ['"']) ++ rest' =
                  '"' :: (lex ++ '"' :: rest') := by simp
              rw [hsh, parseVal, if_neg (by decide), if_neg (by decide),
                if_pos rfl, hSrelex rest']
          · exact absurd h (by simp)
        · rw [if_neg hquote] at h
          by_cases hL0 : startsWithSeq trueLit (c :: restO) = true
          · rw [if_pos hL0] at h
            injection h with h
            rw [Prod.mk.injEq] at h
            obtain ⟨hv, hr⟩ := h
            subst hv
            subst hr
            have hsplit : c :: restO = trueLit ++ (c :: restO).drop 4 :=
              startsWithSeq_split trueLit (c :: restO) hL0
            refine ⟨trueLit, hsplit, scanThru_all_plain trueLit (by decide),
              ⟨'t', ['r', 'u', 'e'], rfl, by decide, by decide⟩, ?_, ?_⟩
            · intro fs' hv
              exact absurd hv (by simp)
            · intro rest' m hsafe hm
              have hlenlit : (trueLit).length = 4 := rfl
              obtain ⟨m', rfl⟩ : ∃ m', m = m' + 1 := ⟨m - 1, by omega⟩
              have hsh : trueLit ++ rest' = 't' :: 'r' :: 'u' :: 'e' :: rest' := rfl
              have hsw : startsWithSeq trueLit ('t' :: 'r' :: 'u' :: 'e' :: rest') = true :=
                startsWithSeq_append_self trueLit rest'
              rw [hsh, parseVal, if_neg (by decide),
      if_neg (by decide),
      if_neg (by decide),
      if_pos hsw]
              rfl
          · rw [if_neg hL0] at h
            by_cases hL1 : startsWithSeq falseLit (c :: restO) = true
            · rw [if_pos hL1] at h
              injection h with h
              rw [Prod.mk.injEq] at h
              obtain ⟨hv, hr⟩ := h
              subst hv
              subst hr
              have hsplit : c :: restO = falseLit ++ (c :: restO).drop 5 :=
                startsWithSeq_split falseLit (c :: restO) hL1
              refine ⟨falseLit, hsplit, scanThru_all_plain falseLit (by decide),
                ⟨'f', ['a', 'l', 's', 'e'], rfl, by decide, by decide⟩, ?_, ?_⟩
              · intro fs' hv
                exact absurd hv (by simp)
              · intro rest' m hsafe hm
                have hlenlit : (falseLit).length = 5 := rfl
                obtain ⟨m', rfl⟩ : ∃ m', m = m' + 1 := ⟨m - 1, by omega⟩
                have hsh : falseLit ++ rest' = 'f' :: 'a' :: 'l' :: 's' :: 'e' :: rest' := rfl
                have hsw : startsWithSeq falseLit ('f' :: 'a' :: 'l' :: 's' :: 'e' :: rest') = true :=
                  startsWithSeq_append_self falseLit rest'
                have hn0 : startsWithSeq trueLit ('f' :: 'a' :: 'l' :: 's' :: 'e' :: rest') = false :=
                  startsWithSeq_head_ne 't' 'f' (['r', 'u', 'e']) ('a' :: 'l' :: 's' :: 'e' :: rest') (by decide)
                rw [hsh, parseVal, if_neg (by decide),
      if_neg (by decide),
      if_neg (by decide),
      if_neg (ne_true_of_false hn0),
      if_pos hsw]
                rfl
            · rw [if_neg hL1] at h
              by_cases hL2 : startsWithSeq nullLit (c :: restO) = true
              · rw [if_pos hL2] at h
                injection h with h
                rw [Prod.mk.injEq] at h
                obtain ⟨hv, hr⟩ := h
                subst hv
                subst hr
                have hsplit : c :: restO = nullLit ++ (c :: restO).drop 4 :=
                  startsWithSeq_split nullLit (c :: restO) hL2
                refine ⟨nullLit, hsplit, scanThru_all_plain nullLit (by decide),
                  ⟨'n', ['u', 'l', 'l'], rfl, by decide, by decide⟩, ?_, ?_⟩
                · intro fs' hv
                  exact absurd hv (by simp)
                · intro rest' m hsafe hm
                  have hlenlit : (nullLit).length = 4 := rfl
                  obtain ⟨m', rfl⟩ : ∃ m', m = m' + 1 := ⟨m - 1, by omega⟩
                  have hsh : nullLit ++ rest' = 'n' :: 'u' :: 'l' :: 'l' :: rest' := rfl
                  have hsw : startsWithSeq nullLit ('n' :: 'u' :: 'l' :: 'l' :: rest') = true :=
                    startsWithSeq_append_self nullLit rest'
                  have hn0 : startsWithSeq trueLit ('n' :: 'u' :: 'l' :: 'l' :: rest') = false :=
                    startsWithSeq_head_ne 't' 'n' (['r', 'u', 'e']) ('u' :: 'l' :: 'l' :: rest') (by decide)
                  have hn1 : startsWithSeq falseLit ('n' :: 'u' :: 'l' :: 'l' :: rest') = false :=
                    startsWithSeq_head_ne 'f' 'n' (['a', 'l', 's', 'e']) ('u' :: 'l' :: 'l' :: rest') (by decide)
                  rw [hsh, parseVal, if_neg (by decide),
      if_neg (by decide),
      if_neg (by decide),
      if_neg (ne_true_of_false hn0),
      if_neg (ne_true_of_false hn1),
      if_pos hsw]
                  rfl
              · rw [if_neg hL2] at h
                by_cases hL3 : startsWithSeq nanLit (c :: restO) = true
                · rw [if_pos hL3] at h
                  injection h with h
                  rw [Prod.mk.injEq] at h
                  obtain ⟨hv, hr⟩ := h
                  subst hv
                  subst hr
                  have hsplit : c :: restO = nanLit ++ (c :: restO).drop 3 :=
                    startsWithSeq_split nanLit (c :: restO) hL3
                  refine ⟨nanLit, hsplit, scanThru_all_plain nanLit (by decide),
                    ⟨'N', ['a', 'N'], rfl, by decide, by decide⟩, ?_, ?_⟩
                  · intro fs' hv
                    exact absurd hv (by simp)
                  · intro rest' m hsafe hm
                    have hlenlit : (nanLit).length = 3 := rfl
                    obtain ⟨m', rfl⟩ : ∃ m', m = m' + 1 := ⟨m - 1, by omega⟩
                    have hsh : nanLit ++ rest' = 'N' :: 'a' :: 'N' :: rest' := rfl
                    have hsw : startsWithSeq nanLit ('N' :: 'a' :: 'N' :: rest') = true :=
                      startsWithSeq_append_self nanLit rest'
                    have hn0 : startsWithSeq trueLit ('N' :: 'a' :: 'N' :: rest') = false :=
                      startsWithSeq_head_ne 't' 'N' (['r', 'u', 'e']) ('a' :: 'N' :: rest') (by decide)
                    have hn1 : startsWithSeq falseLit ('N' :: 'a' :: 'N' :: rest') = false :=
                      startsWithSeq_head_ne 'f' 'N' (['a', 'l', 's', 'e']) ('a' :: 'N' :: rest') (by decide)
                    have hn2 : startsWithSeq nullLit ('N' :: 'a' :: 'N' :: rest') = false :=
                      startsWithSeq_head_ne 'n' 'N' (['u', 'l', 'l']) ('a' :: 'N' :: rest') (by decide)
                    rw [hsh, parseVal, if_neg (by decide),
      if_neg (by decide),
      if_neg (by decide),
      if_neg (ne_true_of_false hn0),
      if_neg (ne_true_of_false hn1),
      if_neg (ne_true_of_false hn2),
      if_pos hsw]
                    rfl
                · rw [if_neg hL3] at h
                  by_cases hL4 : startsWithSeq infLit (c :: restO) = true
                  · rw [if_pos hL4] at h
                    injection h with h
                    rw [Prod.mk.injEq] at h
                    obtain ⟨hv, hr⟩ := h
                    subst hv
                    subst hr
                    have hsplit : c :: restO = infLit ++ (c :: restO).drop 8 :=
                      startsWithSeq_split infLit (c :: restO) hL4
                    refine ⟨infLit, hsplit, scanThru_all_plain infLit (by decide),
                      ⟨'I', ['n', 'f', 'i', 'n', 'i', 't', 'y'], rfl, by decide, by decide⟩, ?_, ?_⟩
                    · intro fs' hv
                      exact absurd hv (by simp)
                    · intro rest' m hsafe hm
                      have hlenlit : (infLit).length = 8 := rfl
                      obtain ⟨m', rfl⟩ : ∃ m', m = m' + 1 := ⟨m - 1, by omega⟩
                      have hsh : infLit ++ rest' = 'I' :: 'n' :: 'f' :: 'i' :: 'n' :: 'i' :: 't' :: 'y' :: rest' := rfl
                      have hsw : startsWithSeq infLit ('I' :: 'n' :: 'f' :: 'i' :: 'n' :: 'i' :: 't' :: 'y' :: rest') = true :=
                        startsWithSeq_append_self infLit rest'
                      have hn0 : startsWithSeq trueLit ('I' :: 'n' :: 'f' :: 'i' :: 'n' :: 'i' :: 't' :: 'y' :: rest') = false :=
                        startsWithSeq_head_ne 't' 'I' (['r', 'u', 'e']) ('n' :: 'f' :: 'i' :: 'n' :: 'i' :: 't' :: 'y' :: rest') (by decide)
                      have hn1 : startsWithSeq falseLit ('I' :: 'n' :: 'f' :: 'i' :: 'n' :: 'i' :: 't' :: 'y' :: rest') = false :=
                        startsWithSeq_head_ne 'f' 'I' (['a', 'l', 's', 'e']) ('n' :: 'f' :: 'i' :: 'n' :: 'i' :: 't' :: 'y' :: rest') (by decide)
                      have hn2 : startsWithSeq nullLit ('I' :: 'n' :: 'f' :: 'i' :: 'n' :: 'i' :: 't' :: 'y' :: rest') = false :=
                        startsWithSeq_head_ne 'n' 'I' (['u', 'l', 'l']) ('n' :: 'f' :: 'i' :: 'n' :: 'i' :: 't' :: 'y' :: rest') (by decide)
                      have hn3 : startsWithSeq nanLit ('I' :: 'n' :: 'f' :: 'i' :: 'n' :: 'i' :: 't' :: 'y' :: rest') = false :=
                        startsWithSeq_head_ne 'N' 'I' (['a', 'N']) ('n' :: 'f' :: 'i' :: 'n' :: 'i' :: 't' :: 'y' :: rest') (by decide)
                      rw [hsh, parseVal, if_neg (by decide),
      if_neg (by decide),
      if_neg (by decide),
      if_neg (ne_true_of_false hn0),
      if_neg (ne_true_of_false hn1),
      if_neg (ne_true_of_false hn2),
      if_neg (ne_true_of_false hn3),
      if_pos hsw]
                      rfl
                  · rw [if_neg hL4] at h
                    by_cases hL5 : startsWithSeq negInfLit (c :: restO) = true
                    · rw [if_pos hL5] at h
                      injection h with h
                      rw [Prod.mk.injEq] at h
                      obtain ⟨hv, hr⟩ := h
                      subst hv
                      subst hr
                      have hsplit : c :: restO = negInfLit ++ (c :: restO).drop 9 :=
                        startsWithSeq_split negInfLit (c :: restO) hL5
                      refine ⟨negInfLit, hsplit, scanThru_all_plain negInfLit (by decide),
                        ⟨'-', infLit, rfl, by decide, by decide⟩, ?_, ?_⟩
                      · intro fs' hv
                        exact absurd hv (by simp)
                      · intro rest' m hsafe hm
                        have hlenlit : (negInfLit).length = 9 := rfl
                        obtain ⟨m', rfl⟩ : ∃ m', m = m' + 1 := ⟨m - 1, by omega⟩
                        have hsh : negInfLit ++ rest' = '-' :: 'I' :: 'n' :: 'f' :: 'i' :: 'n' :: 'i' :: 't' :: 'y' :: rest' := rfl
                        have hsw : startsWithSeq negInfLit ('-' :: 'I' :: 'n' :: 'f' :: 'i' :: 'n' :: 'i' :: 't' :: 'y' :: rest') = true :=
                          startsWithSeq_append_self negInfLit rest'
                        have hn0 : startsWithSeq trueLit ('-' :: 'I' :: 'n' :: 'f' :: 'i' :: 'n' :: 'i' :: 't' :: 'y' :: rest') = false :=
                          startsWithSeq_head_ne 't' '-' (['r', 'u', 'e']) ('I' :: 'n' :: 'f' :: 'i' :: 'n' :: 'i' :: 't' :: 'y' :: rest') (by decide)
                        have hn1 : startsWithSeq falseLit ('-' :: 'I' :: 'n' :: 'f' :: 'i' :: 'n' :: 'i' :: 't' :: 'y' :: rest') = false :=
                          startsWithSeq_head_ne 'f' '-' (['a', 'l', 's', 'e']) ('I' :: 'n' :: 'f' :: 'i' :: 'n' :: 'i' :: 't' :: 'y' :: rest') (by decide)
                        have hn2 : startsWithSeq nullLit ('-' :: 'I' :: 'n' :: 'f' :: 'i' :: 'n' :: 'i' :: 't' :: 'y' :: rest') = false :=
                          startsWithSeq_head_ne 'n' '-' (['u', 'l', 'l']) ('I' :: 'n' :: 'f' :: 'i' :: 'n' :: 'i' :: 't' :: 'y' :: rest') (by decide)
                        have hn3 : startsWithSeq nanLit ('-' :: 'I' :: 'n' :: 'f' :: 'i' :: 'n' :: 'i' :: 't' :: 'y' :: rest') = false :=
                          startsWithSeq_head_ne 'N' '-' (['a', 'N']) ('I' :: 'n' :: 'f' :: 'i' :: 'n' :: 'i' :: 't' :: 'y' :: rest') (by decide)
                        have hn4 : startsWithSeq infLit ('-' :: 'I' :: 'n' :: 'f' :: 'i' :: 'n' :: 'i' :: 't' :: 'y' :: rest') = false :=
                          startsWithSeq_head_ne 'I' '-' (['n', 'f', 'i', 'n', 'i', 't', 'y']) ('I' :: 'n' :: 'f' :: 'i' :: 'n' :: 'i' :: 't' :: 'y' :: rest') (by decide)
                        rw [hsh, parseVal, if_neg (by decide),
      if_neg (by decide),
      if_neg (by decide),
      if_neg (ne_true_of_false hn0),
      if_neg (ne_true_of_false hn1),
      if_neg (ne_true_of_false hn2),
      if_neg (ne_true_of_false hn3),
      if_neg (ne_true_of_false hn4),
      if_pos hsw]
                        rfl
                    · rw [if_neg hL5] at h
                      split at h
                      · rename_i lex r heqN
                        injection h with h
                        rw [Prod.mk.injEq] at h
                        obtain ⟨hv, hr⟩ := h
                        subst hv
                        subst hr
                        obtain ⟨sign, ip, fp, ep, hlex, hcseq, hg⟩ :=
                          parseNumber_decompose _ _ _ heqN
                        subst hlex
                        obtain ⟨d, ds', hip, hd⟩ :
                            ∃ d ds', ip = d :: ds' ∧ isDigitC d = true := by
                          rcases hg.2.1 with rfl | ⟨d, ds, rfl, hdd, -, -⟩
                          · exact ⟨'0', [], rfl, by decide⟩
                          · exact ⟨d, ds, rfl, hdd⟩
                        subst hip
                        have hs := hg.1
                        refine ⟨sign ++ (d :: ds') ++ fp ++ ep, hcseq, ?_, ?_, ?_, ?_⟩
                        · exact scanThru_all_plain _ (fun ch hch => numChar_notStruct
                            (numGroups_chars hg ch hch))
                        · rcases hs with rfl | rfl
                          · exact ⟨d, ds' ++ fp ++ ep, by simp, isDigitC_not_ws hd,
                              isDigitC_false_ne hd (by decide)⟩
                          · exact ⟨'-', (d :: ds') ++ fp ++ ep, by simp, by decide, by decide⟩
                        · intro fs' hv
                          exact absurd hv (by simp)
                        · intro rest' m hsafe hm
                          obtain ⟨m', rfl⟩ : ∃ m', m = m' + 1 := ⟨m - 1, by omega⟩
                          rcases hs with rfl | rfl
                          · have hsh : ([] ++ (d :: ds') ++ fp ++ ep) ++ rest' =
                                d :: (ds' ++ (fp ++ (ep ++ rest'))) := by simp
                            have hassem : parseNumber (d :: (ds' ++ (fp ++ (ep ++ rest')))) =
                                some ([] ++ (d :: ds') ++ fp ++ ep, rest') :=
                              parseNumber_assemble [] (d :: ds') fp ep rest' hg hsafe
                            have hn0 : startsWithSeq trueLit (d :: (ds' ++ (fp ++ (ep ++ rest')))) = false :=
                              startsWithSeq_head_ne 't' d (['r', 'u', 'e']) (ds' ++ (fp ++ (ep ++ rest')))
                                (isDigitC_false_ne hd (by decide))
                            have hn1 : startsWithSeq falseLit (d :: (ds' ++ (fp ++ (ep ++ rest')))) = false :=
                              startsWithSeq_head_ne 'f' d (['a', 'l', 's', 'e']) (ds' ++ (fp ++ (ep ++ rest')))
                                (isDigitC_false_ne hd (by decide))
                            have hn2 : startsWithSeq nullLit (d :: (ds' ++ (fp ++ (ep ++ rest')))) = false :=
                              startsWithSeq_head_ne 'n' d (['u', 'l', 'l']) (ds' ++ (fp ++ (ep ++ rest')))
                                (isDigitC_false_ne hd (by decide))
                            have hn3 : startsWithSeq nanLit (d :: (ds' ++ (fp ++ (ep ++ rest')))) = false :=
                              startsWithSeq_head_ne 'N' d (['a', 'N']) (ds' ++ (fp ++ (ep ++ rest')))
                                (isDigitC_false_ne hd (by decide))
                            have hn4 : startsWithSeq infLit (d :: (ds' ++ (fp ++ (ep ++ rest')))) = false :=
                              startsWithSeq_head_ne 'I' d (['n', 'f', 'i', 'n', 'i', 't', 'y']) (ds' ++ (fp ++ (ep ++ rest')))
                                (isDigitC_false_ne hd (by decide))
                            have hn5 : startsWithSeq negInfLit (d :: (ds' ++ (fp ++ (ep ++ rest')))) = false :=
                              startsWithSeq_head_ne '-' d (infLit) (ds' ++ (fp ++ (ep ++ rest')))
                                (isDigitC_false_ne hd (by decide))
                            rw [hsh, parseVal, if_neg (isDigitC_false_ne hd (by decide)),
        if_neg (isDigitC_false_ne hd (by decide)),
        if_neg (isDigitC_false_ne hd (by decide)),
        if_neg (ne_true_of_false hn0),
        if_neg (ne_true_of_false hn1),
        if_neg (ne_true_of_false hn2),
        if_neg (ne_true_of_false hn3),
        if_neg (ne_true_of_false hn4),
        if_neg (ne_true_of_false hn5),
        hassem]
                          · have hsh : ((['-'] : List Char) ++ (d :: ds') ++ fp ++ ep) ++ rest' =
                                '-' :: d :: (ds' ++ (fp ++ (ep ++ rest'))) := by simp
                            have hassem : parseNumber ('-' :: d :: (ds' ++ (fp ++ (ep ++ rest')))) =
                                some (['-'] ++ (d :: ds') ++ fp ++ ep, rest') :=
                              parseNumber_assemble ['-'] (d :: ds') fp ep rest' hg hsafe
                            have hn0 : startsWithSeq trueLit ('-' :: d :: (ds' ++ (fp ++ (ep ++ rest')))) = false :=
                              startsWithSeq_head_ne 't' '-' (['r', 'u', 'e']) (d :: (ds' ++ (fp ++ (ep ++ rest')))) (by decide)
                            have hn1 : startsWithSeq falseLit ('-' :: d :: (ds' ++ (fp ++ (ep ++ rest')))) = false :=
                              startsWithSeq_head_ne 'f' '-' (['a', 'l', 's', 'e']) (d :: (ds' ++ (fp ++ (ep ++ rest')))) (by decide)
                            have hn2 : startsWithSeq nullLit ('-' :: d :: (ds' ++ (fp ++ (ep ++ rest')))) = false :=
                              startsWithSeq_head_ne 'n' '-' (['u', 'l', 'l']) (d :: (ds' ++ (fp ++ (ep ++ rest')))) (by decide)
                            have hn3 : startsWithSeq nanLit ('-' :: d :: (ds' ++ (fp ++ (ep ++ rest')))) = false :=
                              startsWithSeq_head_ne 'N' '-' (['a', 'N']) (d :: (ds' ++ (fp ++ (ep ++ rest')))) (by decide)
                            have hn4 : startsWithSeq infLit ('-' :: d :: (ds' ++ (fp ++ (ep ++ rest')))) = false :=
                              startsWithSeq_head_ne 'I' '-' (['n', 'f', 'i', 'n', 'i', 't', 'y']) (d :: (ds' ++ (fp ++ (ep ++ rest')))) (by decide)
                            have hn5 : startsWithSeq negInfLit ('-' :: d :: (ds' ++ (fp ++ (ep ++ rest')))) = false :=
                              startsWithSeq_second_ne '-' 'I' '-' d ['n', 'f', 'i', 'n', 'i', 't', 'y']
                                (ds' ++ (fp ++ (ep ++ rest'))) (isDigitC_false_ne hd (by decide))
                            rw [hsh, parseVal, if_neg (by decide),
        if_neg (by decide),
        if_neg (by decide),
        if_neg (ne_true_of_false hn0),
        if_neg (ne_true_of_false hn1),
        if_neg (ne_true_of_false hn2),
        if_neg (ne_true_of_false hn3),
        if_neg (ne_true_of_false hn4),
        if_neg (ne_true_of_false hn5),
        hassem]
                      · exact absurd h (by simp)

theorem skipWs_append_eq_of_head {c : Char} (hc : isJsonWs c = false)
    (a b : List Char) : skipWs ((c :: a) ++ b) = (c :: a) ++ b := by
  rw [List.cons_append, skipWs_cons_not c _ hc]

theorem membersOut_succ (n : Nat) (ihv : ValOut n) (ihm : MembersOut n) :
    MembersOut (Nat.succ n) := by
  intro first cs fs rest h
  match cs with
  | [] =>
    rw [parseMembers] at h
    exact absurd h (by simp)
  | c :: restK =>
    rw [parseMembers] at h
    by_cases hfc : first ∧ c = '}'
    · rw [if_pos hfc] at h
      injection h with h
      rw [Prod.mk.injEq] at h
      obtain ⟨hv, hr⟩ := h
      subst hv
      subst hr
      obtain ⟨hfirst, rfl⟩ := hfc
      refine ⟨[], rfl, scanThru_nil, ?_, ?_⟩
      · intro X
        rw [List.nil_append]
        exact skipWs_cons_not '}' X (by decide)
      · intro rest' m hm
        obtain ⟨m', rfl⟩ : ∃ m', m = m' + 1 := ⟨m - 1, by omega⟩
        rw [List.nil_append, parseMembers, if_pos ⟨hfirst, rfl⟩]
    · rw [if_neg hfc] at h
      by_cases hcq : c = '"'
      · subst hcq
        rw [if_pos rfl] at h
        split at h
        · rename_i key r1 heqS
          obtain ⟨hSsplit, hSrelex, hSscan⟩ :=
            stringBody_main restK key r1 heqS
          split at h
          · rename_i r3 heqC
            split at h
            · rename_i v1 r5 heqV
              obtain ⟨uv, hveq, hvScan, hvHead, -, hvRerun⟩ :=
                ihv (skipWs r3) v1 r5 heqV
              obtain ⟨c0, u2, rfl, hc0ws, hc0b⟩ := hvHead
              obtain ⟨w1, hw1eq, hw1⟩ :
                  ∃ w1, r1 = w1 ++ ':' :: r3 ∧ ∀ x ∈ w1, isJsonWs x = true :=
                ⟨r1.takeWhile isJsonWs,
                  by conv_lhs => rw [(skipWs_split r1).1, heqC],
                  (skipWs_split r1).2⟩
              obtain ⟨w3, hw3eq, hw3⟩ :
                  ∃ w3, r3 = w3 ++ ((c0 :: u2) ++ r5) ∧
                    ∀ x ∈ w3, isJsonWs x = true :=
                ⟨r3.takeWhile isJsonWs,
                  by conv_lhs => rw [(skipWs_split r3).1, hveq],
                  (skipWs_split r3).2⟩
              split at h
              · rename_i r7 heqComma
                split at h
                · rename_i fs2 rr heqM
                  injection h with h
                  rw [Prod.mk.injEq] at h
                  obtain ⟨hv, hr⟩ := h
                  subst hv
                  subst hr
                  obtain ⟨um, hmeq, hmScan, hmSkip, hmRerun⟩ :=
                    ihm false (skipWs r7) fs2 rr heqM
                  obtain ⟨w5, hw5eq, hw5⟩ :
                      ∃ w5, r5 = w5 ++ ',' :: r7 ∧
                        ∀ x ∈ w5, isJsonWs x = true :=
                    ⟨r5.takeWhile isJsonWs,
                      by conv_lhs => rw [(skipWs_split r5).1, heqComma],
                      (skipWs_split r5).2⟩
                  obtain ⟨w7, hw7eq, hw7⟩ :
                      ∃ w7, r7 = w7 ++ (um ++ '}' :: rr) ∧
                        ∀ x ∈ w7, isJsonWs x = true :=
                    ⟨r7.takeWhile isJsonWs,
                      by conv_lhs => rw [(skipWs_split r7).1, hmeq],
                      (skipWs_split r7).2⟩
                  refine ⟨(('"' :: key) ++ ['"']) ++ w1 ++ [':'] ++ w3 ++
                    (c0 :: u2) ++ w5 ++ [','] ++ w7 ++ um, ?_, ?_, ?_, ?_⟩
                  · rw [hSsplit, hw1eq, hw3eq, hw5eq, hw7eq]
                    simp
                  · exact scanThru_append (scanThru_append (scanThru_append
                      (scanThru_append (scanThru_append (scanThru_append
                      (scanThru_append (scanThru_append
                      (scanThru_string key hSscan) (scanThru_ws hw1))
                      scanThru_colon) (scanThru_ws hw3)) hvScan)
                      (scanThru_ws hw5)) scanThru_comma) (scanThru_ws hw7))
                      hmScan
                  · intro X
                    simp only [List.append_assoc, List.cons_append]
                    rw [skipWs_cons_not _ _ (by decide)]
                  · intro rest' m hm
                    obtain ⟨m', rfl⟩ : ∃ m', m = m' + 1 := ⟨m - 1, by omega⟩
                    simp only [List.length_append, List.length_cons] at hm
                    have hsh : ((('"' :: key) ++ ['"']) ++ w1 ++ [':'] ++ w3 ++
                        (c0 :: u2) ++ w5 ++ [','] ++ w7 ++ um) ++
                        '}' :: rest' =
                        '"' :: (key ++ '"' :: (w1 ++ ':' :: (w3 ++
                          ((c0 :: u2) ++ (w5 ++ ',' :: (w7 ++
                            (um ++ '}' :: rest'))))))) := by
                      simp
                    rw [hsh, parseMembers,
                      if_neg (fun hcon => absurd hcon.2 (by decide)),
                      if_pos rfl, hSrelex]
                    simp only
                    rw [skipWs_ws_append w1 _ hw1,
                      skipWs_cons_not ':' _ (by decide)]
                    simp only
                    rw [skipWs_ws_append w3 _ hw3,
                      skipWs_append_eq_of_head hc0ws u2 _,
                      hvRerun _ m'
                        (safeHead_ws_delim w5 hw5 ',' (by tauto) _)
                        (by simp only [List.length_cons]; omega)]
                    simp only
                    rw [skipWs_ws_append w5 _ hw5,
                      skipWs_cons_not ',' _ (by decide)]
                    simp only
                    rw [skipWs_ws_append w7 _ hw7, hmSkip rest',
                      hmRerun rest' m' (by omega)]
                · exact absurd h (by simp)
              · rename_i r7 heqBrace
                injection h with h
                rw [Prod.mk.injEq] at h
                obtain ⟨hv, hr⟩ := h
                subst hv
                subst hr
                obtain ⟨w5, hw5eq, hw5⟩ :
                    ∃ w5, r5 = w5 ++ '}' :: r7 ∧
                      ∀ x ∈ w5, isJsonWs x = true :=
                  ⟨r5.takeWhile isJsonWs,
                    by conv_lhs => rw [(skipWs_split r5).1, heqBrace],
                    (skipWs_split r5).2⟩
                refine ⟨(('"' :: key) ++ ['"']) ++ w1 ++ [':'] ++ w3 ++
                  (c0 :: u2) ++ w5, ?_, ?_, ?_, ?_⟩
                · rw [hSsplit, hw1eq, hw3eq, hw5eq]
                  simp
                · exact scanThru_append (scanThru_append (scanThru_append
                    (scanThru_append (scanThru_append
                    (scanThru_string key hSscan) (scanThru_ws hw1))
                    scanThru_colon) (scanThru_ws hw3)) hvScan)
                    (scanThru_ws hw5)
                · intro X
                  simp only [List.append_assoc, List.cons_append]
                  rw [skipWs_cons_not _ _ (by decide)]
                · intro rest' m hm
                  obtain ⟨m', rfl⟩ : ∃ m', m = m' + 1 := ⟨m - 1, by omega⟩
                  simp only [List.length_append, List.length_cons] at hm
                  have hsh : ((('"' :: key) ++ ['"']) ++ w1 ++ [':'] ++ w3 ++
                      (c0 :: u2) ++ w5) ++ '}' :: rest' =
                      '"' :: (key ++ '"' :: (w1 ++ ':' :: (w3 ++
                        ((c0 :: u2) ++ (w5 ++ '}' :: rest'))))) := by
                    simp
                  rw [hsh, parseMembers,
                    if_neg (fun hcon => absurd hcon.2 (by decide)),
                    if_pos rfl, hSrelex]
                  simp only
                  rw [skipWs_ws_append w1 _ hw1,
                    skipWs_cons_not ':' _ (by decide)]
                  simp only
                  rw [skipWs_ws_append w3 _ hw3,
                    skipWs_append_eq_of_head hc0ws u2 _,
                    hvRerun _ m'
                      (safeHead_ws_delim w5 hw5 '}' (by tauto) _)
                      (by simp only [List.length_cons]; omega)]
                  simp only
                  rw [skipWs_ws_append w5 _ hw5,
                    skipWs_cons_not '}' _ (by decide)]
                  rfl
              · exact absurd h (by simp)
            · exact absurd h (by simp)
          · exact absurd h (by simp)
        · exact absurd h (by simp)
      · rw [if_neg hcq] at h
        exact absurd h (by simp)

theorem elemsOut_succ (n : Nat) (ihv : ValOut n) (ihe : ElemsOut n) :
    ElemsOut (Nat.succ n) := by
  intro first cs xs rest h
  match cs with
  | [] =>
    rw [parseElems] at h
    exact absurd h (by simp)
  | c :: restO =>
    rw [parseElems] at h
    by_cases hfc : first ∧ c = ']'
    · rw [if_pos hfc] at h
      injection h with h
      rw [Prod.mk.injEq] at h
      obtain ⟨hv, hr⟩ := h
      subst hv
      subst hr
      obtain ⟨hfirst, rfl⟩ := hfc
      refine ⟨[], rfl, scanThru_nil, ?_, ?_⟩
      · intro X
        rw [List.nil_append]
        exact skipWs_cons_not ']' X (by decide)
      · intro rest' m hm
        obtain ⟨m', rfl⟩ : ∃ m', m = m' + 1 := ⟨m - 1, by omega⟩
        rw [List.nil_append, parseElems, if_pos ⟨hfirst, rfl⟩]
        rfl
    · rw [if_neg hfc] at h
      split at h
      · rename_i v1 r1 heqV
        obtain ⟨uv, hveq, hvScan, hvHead, -, hvRerun⟩ :=
          ihv (c :: restO) v1 r1 heqV
        obtain ⟨c0, u2, rfl, hc0ws, hc0b⟩ := hvHead
        split at h
        · rename_i r3 heqComma
          split at h
          · rename_i xs2 rr heqE
            injection h with h
            rw [Prod.mk.injEq] at h
            obtain ⟨hv, hr⟩ := h
            subst hv
            subst hr
            obtain ⟨ue, heeq, heScan, heSkip, heRerun⟩ :=
              ihe false (skipWs r3) xs2 rr heqE
            obtain ⟨w1, hw1eq, hw1⟩ :
                ∃ w1, r1 = w1 ++ ',' :: r3 ∧ ∀ x ∈ w1, isJsonWs x = true :=
              ⟨r1.takeWhile isJsonWs,
                by conv_lhs => rw [(skipWs_split r1).1, heqComma],
                (skipWs_split r1).2⟩
            obtain ⟨w3, hw3eq, hw3⟩ :
                ∃ w3, r3 = w3 ++ (ue ++ ']' :: rr) ∧
                  ∀ x ∈ w3, isJsonWs x = true :=
              ⟨r3.takeWhile isJsonWs,
                by conv_lhs => rw [(skipWs_split r3).1, heeq],
                (skipWs_split r3).2⟩
            refine ⟨(c0 :: u2) ++ w1 ++ [','] ++ w3 ++ ue, ?_, ?_, ?_, ?_⟩
            · rw [hveq, hw1eq, hw3eq]
              simp
            · exact scanThru_append (scanThru_append (scanThru_append
                (scanThru_append hvScan (scanThru_ws hw1)) scanThru_comma)
                (scanThru_ws hw3)) heScan
            · intro X
              simp only [List.append_assoc, List.cons_append]
              rw [skipWs_cons_not _ _ hc0ws]
            · intro rest' m hm
              obtain ⟨m', rfl⟩ : ∃ m', m = m' + 1 := ⟨m - 1, by omega⟩
              simp only [List.length_append, List.length_cons] at hm
              have hsh : ((c0 :: u2) ++ w1 ++ [','] ++ w3 ++ ue) ++
                  ']' :: rest' =
                  c0 :: (u2 ++ (w1 ++ ',' :: (w3 ++ (ue ++ ']' :: rest')))) := by
                simp
              have hv2 : parseVal m'
                  (c0 :: (u2 ++ (w1 ++ ',' :: (w3 ++ (ue ++ ']' :: rest'))))) =
                  some (v1, w1 ++ ',' :: (w3 ++ (ue ++ ']' :: rest'))) :=
                hvRerun _ m' (safeHead_ws_delim w1 hw1 ',' (by tauto) _)
                  (by simp only [List.length_cons]; omega)
              rw [hsh, parseElems, if_neg (fun hcon => hc0b hcon.2), hv2]
              simp only
              rw [skipWs_ws_append w1 _ hw1,
                skipWs_cons_not ',' _ (by decide)]
              simp only
              rw [skipWs_ws_append w3 _ hw3, heSkip rest',
                heRerun rest' m' (by omega)]
          · exact absurd h (by simp)
        · rename_i r3 heqBr
          injection h with h
          rw [Prod.mk.injEq] at h
          obtain ⟨hv, hr⟩ := h
          subst hv
          subst hr
          obtain ⟨w1, hw1eq, hw1⟩ :
              ∃ w1, r1 = w1 ++ ']' :: r3 ∧ ∀ x ∈ w1, isJsonWs x = true :=
            ⟨r1.takeWhile isJsonWs,
              by conv_lhs => rw [(skipWs_split r1).1, heqBr],
              (skipWs_split r1).2⟩
          refine ⟨(c0 :: u2) ++ w1, ?_, ?_, ?_, ?_⟩
          · rw [hveq, hw1eq]
            simp
          · exact scanThru_append hvScan (scanThru_ws hw1)
          · intro X
            simp only [List.append_assoc, List.cons_append]
            rw [skipWs_cons_not _ _ hc0ws]
          · intro rest' m hm
            obtain ⟨m', rfl⟩ : ∃ m', m = m' + 1 := ⟨m - 1, by omega⟩
            simp only [List.length_append, List.length_cons] at hm
            have hsh : ((c0 :: u2) ++ w1) ++ ']' :: rest' =
                c0 :: (u2 ++ (w1 ++ ']' :: rest')) := by simp
            have hv2 : parseVal m' (c0 :: (u2 ++ (w1 ++ ']' :: rest'))) =
                some (v1, w1 ++ ']' :: rest') :=
              hvRerun _ m' (safeHead_ws_delim w1 hw1 ']' (by tauto) _)
                (by simp only [List.length_cons]; omega)
            rw [hsh, parseElems, if_neg (fun hcon => hc0b hcon.2), hv2]
            simp only
            rw [skipWs_ws_append w1 _ hw1,
              skipWs_cons_not ']' _ (by decide)]
            rfl
        · exact absurd h (by simp)
      · exact absurd h (by simp)

theorem parser_main : ∀ n, ValOut n ∧ MembersOut n ∧ ElemsOut n := by
  intro n
  induction n with
  | zero =>
    refine ⟨?_, ?_, ?_⟩
    · intro cs v rest h
      exact absurd h (by rw [parseVal]; simp)
    · intro first cs fs rest h
      exact absurd h (by rw [parseMembers]; simp)
    · intro first cs xs rest h
      exact absurd h (by rw [parseElems]; simp)
  | succ n ih =>
    exact ⟨valOut_succ n ih.2.1 ih.2.2, membersOut_succ n ih.1 ih.2.1,
      elemsOut_succ n ih.1 ih.2.2⟩

theorem jsonLoadsL_nil : jsonLoadsL [] = none := rfl

/-- Structure of a valid top-level JSON object text: whitespace, the
balanced object (scan-transparent interior), trailing whitespace; and the
object text alone parses to the same value. -/
theorem jsonLoadsL_obj_struct (cs : List Char) (fs : List (String × Json))
    (h : jsonLoadsL cs = some (Json.obj fs)) :
    ∃ w mid r, cs = w ++ ((('{' :: mid) ++ ['}']) ++ r) ∧
      (∀ c ∈ w, isJsonWs c = true) ∧ (∀ c ∈ r, isJsonWs c = true) ∧
      ScanThru mid ∧
      jsonLoadsL (('{' :: mid) ++ ['}']) = some (Json.obj fs) := by
  unfold jsonLoadsL at h
  split at h
  · rename_i v1 rest heqV
    split at h
    · rename_i hrest
      injection h with h
      subst h
      obtain ⟨u, hueq, huScan, huHead, huObj, huRerun⟩ :=
        (parser_main (2 * cs.length + 2)).1 (skipWs cs) (Json.obj fs)
          rest heqV
      obtain ⟨mid, rfl, hmidScan⟩ := huObj fs rfl
      refine ⟨cs.takeWhile isJsonWs, mid, rest, ?_,
        (skipWs_split cs).2, skipWs_nil_all rest hrest, hmidScan, ?_⟩
      · conv_lhs => rw [(skipWs_split cs).1, hueq]
      · unfold jsonLoadsL
        have hskipU : skipWs (('{' :: mid) ++ ['}']) =
            ('{' :: mid) ++ ['}'] :=
          skipWs_append_eq_of_head (by decide) mid ['}']
        rw [hskipU]
        have hrer := huRerun [] (2 * (('{' :: mid) ++ ['}']).length + 2)
          (Or.inl rfl) (Nat.le_refl _)
        rw [List.append_nil] at hrer
        rw [hrer]
        rfl
    · exact absurd h (by simp)
  · exact absurd h (by simp)

theorem pyStrip_ws_wrap (w t r : List Char)
    (hw : ∀ c ∈ w, isPySpace c = true) (hr : ∀ c ∈ r, isPySpace c = true)
    (t2 : List Char) (hlast : '{' :: t = t2 ++ ['}']) :
    pyStrip (w ++ '{' :: (t ++ r)) = '{' :: t := by
  unfold pyStrip
  rw [dropWhile_all_append isPySpace w _ hw,
    List.dropWhile_cons, if_neg (by decide)]
  have hrev : ('{' :: (t ++ r)).reverse = r.reverse ++ ('{' :: t).reverse := by
    rw [← List.cons_append, List.reverse_append]
  rw [hrev, dropWhile_all_append isPySpace r.reverse _
    (fun c hc => hr c (by simpa using hc))]
  rw [hlast, List.reverse_append]
  simp only [List.reverse_cons, List.reverse_nil, List.nil_append,
    List.singleton_append]
  rw [List.dropWhile_cons, if_neg (by decide)]
  simp

theorem stripFences_brace (t : List Char) :
    stripFences ('{' :: t) = '{' :: t := by
  unfold stripFences
  have hf : startsWithSeq fenceLit ('{' :: t) = false :=
    startsWithSeq_head_ne backquote '{' [backquote, backquote] t (by decide)
  rw [if_neg (ne_true_of_false hf)]

theorem pyFindChar_brace_head (t : List Char) :
    pyFindChar '{' ('{' :: t) = some 0 := by
  simp [pyFindChar]

/-- On a valid top-level object, `repair_json` returns the stripped object
text itself. -/
theorem repair_json_valid_obj (s : String) (fs : List (String × Json))
    (h : jsonLoads s = some (Json.obj fs)) :
    jsonLoads (repair_json s) = some (Json.obj fs) := by
  obtain ⟨w, mid, r, hcs, hw, hr, hmidScan, hLoadU⟩ :=
    jsonLoadsL_obj_struct s.data fs h
  have hsne : ¬ s = "" := by
    intro hse
    subst hse
    have := congrArg List.length hcs
    simp at this
    omega
  have hpre : preprocess s = ('{' :: mid) ++ ['}'] := by
    unfold preprocess
    have harg : s.data = w ++ '{' :: ((mid ++ ['}']) ++ r) := by
      rw [hcs]
      simp
    rw [harg, pyStrip_ws_wrap w (mid ++ ['}']) r
      (fun c hc => isJsonWs_isPySpace (hw c hc))
      (fun c hc => isJsonWs_isPySpace (hr c hc))
      ('{' :: mid) rfl]
    exact stripFences_brace (mid ++ ['}'])
  have hscan : scanGo (('{' :: mid) ++ ['}']) [] [] false false =
      (('{' :: mid) ++ ['}'], [], false) := by
    have h2 := scan_root hmidScan []
    rwa [List.append_nil] at h2
  have hcand : repairCandidate (('{' :: mid) ++ ['}']) =
      ('{' :: mid) ++ ['}'] := by
    unfold repairCandidate
    rw [hscan]
    simp [closeStack]
  have hfind : pyFindChar '{' (('{' :: mid) ++ ['}']) = some 0 :=
    pyFindChar_brace_head (mid ++ ['}'])
  have hrj : repair_json s = String.mk (('{' :: mid) ++ ['}']) := by
    unfold repair_json
    rw [if_neg hsne, hpre, hfind]
    simp only
    rw [List.drop_zero, hcand, hLoadU]
    simp
  rw [hrj]
  exact hLoadU

/-- C3: for every input string that is already valid JSON text for an
object, `repair_json` returns a string that parses to the same JSON value
(the decoder passes valid objects through). -/
theorem claim_C3_valid_passthrough (s : String) (v : Json)
    (h : jsonLoads s = some v) (hobj : v.isObj = true) :
    jsonLoads (repair_json s) = some v := by
  obtain ⟨fs, rfl⟩ : ∃ fs, v = Json.obj fs := by
    cases v with
    | obj fs => exact ⟨fs, rfl⟩
    | null => exact absurd hobj (by simp [Json.isObj])
    | bool b => exact absurd hobj (by simp [Json.isObj])
    | num l => exact absurd hobj (by simp [Json.isObj])
    | str l => exact absurd hobj (by simp [Json.isObj])
    | arr xs => exact absurd hobj (by simp [Json.isObj])
  exact repair_json_valid_obj s fs h

theorem claim_C3_valid_passthrough_witness :
    jsonLoads (String.mk ['{', '"', 'a', '"', ':', ' ', '1', '}']) =
      some (Json.obj [(String.mk ['a'], Json.num (String.mk ['1']))]) ∧
    (Json.obj [(String.mk ['a'], Json.num (String.mk ['1']))]).isObj = true ∧
    jsonLoads (repair_json
        (String.mk ['{', '"', 'a', '"', ':', ' ', '1', '}'])) =
      some (Json.obj [(String.mk ['a'], Json.num (String.mk ['1']))]) :=
  ⟨rfl, rfl, claim_C3_valid_passthrough _ _ rfl rfl⟩

end CourseworkBuddy
